import Mathlib

/-!
# Merkle tree: embedding of `merkle_tree.go`

Byte slices are lists of naturals (a byte is a value below 256; nothing below
depends on that bound).  The hash primitive (`crypto/sha256` in the source) is a
parameter `H : Bytes → Bytes` of every definition that hashes, so a theorem
stated for every `H` holds for SHA-256 in particular.  Go's `int` values are slice lengths and
indices and are modelled by `Nat`; the `uint32` field `Path` wraps modulo
`2^32`.  A run-time panic (index out of range, nil dereference) is an explicit
error value, so "the code does not panic" is a statement one can prove.

Slices are values in the translation of the tree: a slice is the list of its
elements and `append` returns the concatenation.  That is exact for the slices
the tree itself makes, each a fresh array without spare capacity.  `verify`
also receives slices from its caller, and there `append` can write into a
sibling's spare capacity; `verifyMem` translates `verify` over such shared
memory, and `verifyMem_eq_verify` shows where the two agree.

The first part translates the source, function by function and loop by loop.
The second part describes the values the loops compute as plain functions of
the input (`treeOf`), and the theorems show that `New` returns exactly that
tree; the claims are then read off.
-/

namespace Merkle

abbrev Bytes := List Nat

/-- Outcomes other than a normal return: the three `errors.New` values of the
source and the two run-time panics the code could in principle raise. -/
inductive Err where
  | tooFewBlocks
  | blockNotFound
  | nilProof
  | indexOutOfRange
  | nilDereference
  deriving DecidableEq, Repr

/-- Source: `type Proof struct { Siblings [][]byte; Path uint32 }`. -/
structure Proof where
  Siblings : List Bytes
  Path : Nat
  deriving DecidableEq, Repr

/-- Source: `type Block struct { Data []byte }`. -/
structure Block where
  Data : Bytes
  deriving DecidableEq, Repr

/-- Source: `type MerkleTree struct`.  `leafMap` is the Go map
`map[string]int` seen as a finite partial function; `Proofs` holds pointers,
`none` being the nil pointer. -/
structure MerkleTree where
  leafMap : Bytes → Option Nat
  nodes : List (List Bytes)
  Root : Bytes
  Leaves : List Bytes
  Proofs : List (Option Proof)
  Depth : Nat
  NumLeaves : Nat

/-- Slice read `l[i]`, panicking when `i` is out of range. -/
def idx {α : Type} (l : List α) (i : Nat) : Except Err α :=
  match l[i]? with
  | some v => .ok v
  | none => .error .indexOutOfRange

/-- Slice write `l[i] = v`, panicking when `i` is out of range. -/
def setIdx {α : Type} (l : List α) (i : Nat) (v : α) : Except Err (List α) :=
  if i < l.length then .ok (l.set i v) else .error .indexOutOfRange

/-- Pointer read `*p`, panicking on nil. -/
def deref {α : Type} (p : Option α) : Except Err α :=
  match p with
  | some v => .ok v
  | none => .error .nilDereference

/-- Go's builtin `copy(dst, src)`: the first `min (len dst) (len src)` elements
of `dst` are overwritten. -/
def copySlice {α : Type} (dst src : List α) : List α :=
  src.take (Nat.min dst.length src.length) ++ dst.drop (Nat.min dst.length src.length)

/-- The loop `for i := start; i < start + cnt; i++ { s = body i s }` whose bound
does not change while it runs; an error or panic in the body leaves the loop. -/
def forLoop {σ : Type} (body : Nat → σ → Except Err σ) : Nat → Nat → σ → Except Err σ
  | 0, _, s => .ok s
  | cnt + 1, i, s =>
    match body i s with
    | .ok s' => forLoop body cnt (i + 1) s'
    | .error e => .error e

/-- Go's `bytes.Compare`: lexicographic comparison, a proper initial segment
being smaller; the result is `-1`, `0` or `1`. -/
def bytesCompare : Bytes → Bytes → Int
  | [], [] => 0
  | [], _ :: _ => -1
  | _ :: _, [] => 1
  | a :: as, b :: bs =>
    if a < b then -1 else if b < a then 1 else bytesCompare as bs

/-- Source: `func (b *Block) Serialize() ([]byte, error)`. -/
def Block.Serialize (b : Block) : Except Err Bytes := .ok b.Data

/-- Source: `func min(a, b int) int`. -/
def min (a b : Nat) : Nat := if a < b then a else b

/-- Source: `func hashFunc(data []byte) ([]byte, error)`; it never fails. -/
def hashFunc (H : Bytes → Bytes) (data : Bytes) : Except Err Bytes := .ok (H data)

/-- Source: `func concatSortHash(b1, b2 []byte) []byte`; `append(b1, b2...)` is
the concatenation. -/
def concatSortHash (b1 b2 : Bytes) : Bytes :=
  if bytesCompare b1 b2 < 0 then b1 ++ b2 else b2 ++ b1

/-- Source: `func leafFromBlock(block Block) ([]byte, error)`. -/
def leafFromBlock (H : Bytes → Bytes) (block : Block) : Except Err Bytes := do
  let blockBytes ← block.Serialize
  hashFunc H blockBytes

/-- The loop of `callTreeDepth`; `fuel` bounds the number of iterations. -/
def callTreeDepthLoop : Nat → Nat → Nat → Nat
  | 0, _, d => d
  | fuel + 1, blockLen, d =>
    if blockLen > 1 then callTreeDepthLoop fuel ((blockLen + 1) / 2) (d + 1) else d

/-- Source: `func callTreeDepth(blockLen int) uint32` on a slice length, as `New`
calls it: below the largest `int` no addition wraps (`callTreeDepthInt64_eq`;
`callTreeDepthInt64` is the function on all of `int`).  The loop runs fewer
than `blockLen` times, so `blockLen` is enough fuel (`callTreeDepth_unfold`). -/
def callTreeDepth (blockLen : Nat) : Nat := callTreeDepthLoop blockLen blockLen 0

/-- Source: `func (m *MerkleTree) leafGen(blocks []Block) ([][]byte, error)`. -/
def MerkleTree.leafGen (H : Bytes → Bytes) (m : MerkleTree) (blocks : List Block) :
    Except Err (List Bytes) :=
  forLoop (fun i leaves => do
      let block ← idx blocks i
      let leaf ← leafFromBlock H block
      setIdx leaves i leaf)
    m.NumLeaves 0 (List.replicate m.NumLeaves [])

/-- Source: `func (m *MerkleTree) fixOdd(buf [][]byte, prevLen int)`. -/
def MerkleTree.fixOdd (buf : List Bytes) (prevLen : Nat) : Except Err (List Bytes × Nat) :=
  if prevLen &&& 1 = 0 then .ok (buf, prevLen)
  else do
    let appendNode ← idx buf (prevLen - 1)
    let prevLen := prevLen + 1
    if buf.length < prevLen then
      .ok (buf ++ [appendNode], prevLen)
    else do
      let buf ← setIdx buf (prevLen - 1) appendNode
      .ok (buf, prevLen)

/-- Source: `func (m *MerkleTree) initProofs()`. -/
def MerkleTree.initProofs (m : MerkleTree) : Except Err MerkleTree :=
  forLoop (fun i m => do
      let ps ← setIdx m.Proofs i (some { Siblings := [], Path := 0 })
      .ok { m with Proofs := ps })
    m.NumLeaves 0 { m with Proofs := List.replicate m.NumLeaves none }

/-- Body of the first loop of `updatePairProofs` (leaves below the left node of
the pair): append `buf[idx+1]`, then `Path += 1 << step` in `uint32`. -/
def MerkleTree.leftBody (buf : List Bytes) (i0 step : Nat) (i : Nat) (m : MerkleTree) :
    Except Err MerkleTree := do
  let p ← idx m.Proofs i >>= deref
  let sib ← idx buf (i0 + 1)
  let ps ← setIdx m.Proofs i (some { p with Siblings := p.Siblings ++ [sib] })
  let m : MerkleTree := { m with Proofs := ps }
  let p ← idx m.Proofs i >>= deref
  let ps ← setIdx m.Proofs i
    (some { p with Path := (p.Path + (1 <<< step) % 2 ^ 32) % 2 ^ 32 })
  .ok { m with Proofs := ps }

/-- Body of the second loop of `updatePairProofs` (leaves below the right node
of the pair): append `buf[idx]`. -/
def MerkleTree.rightBody (buf : List Bytes) (i0 : Nat) (i : Nat) (m : MerkleTree) :
    Except Err MerkleTree := do
  let p ← idx m.Proofs i >>= deref
  let sib ← idx buf i0
  let ps ← setIdx m.Proofs i (some { p with Siblings := p.Siblings ++ [sib] })
  .ok { m with Proofs := ps }

/-- Source: `func (m *MerkleTree) updatePairProofs(buf [][]byte, idx, batch, step int)`. -/
def MerkleTree.updatePairProofs (m : MerkleTree) (buf : List Bytes) (i0 batch step : Nat) :
    Except Err MerkleTree := do
  let start := i0 * batch
  let stop := Merkle.min (start + batch) m.NumLeaves
  let m ← forLoop (MerkleTree.leftBody buf i0 step) (stop - start) start m
  let start := start + batch
  let stop := Merkle.min (start + batch) m.NumLeaves
  forLoop (MerkleTree.rightBody buf i0) (stop - start) start m

/-- Source: `func (m *MerkleTree) updateProofs(buf [][]byte, bufLen, step int)`;
the loop `for i := 0; i < bufLen; i += 2` visits `i = 2 * k` for
`k < (bufLen + 1) / 2`. -/
def MerkleTree.updateProofs (m : MerkleTree) (buf : List Bytes) (bufLen step : Nat) :
    Except Err MerkleTree :=
  let batch := 1 <<< step
  forLoop (fun k m => m.updatePairProofs buf (2 * k) batch step) ((bufLen + 1) / 2) 0 m

/-- Source: `func (m *MerkleTree) proofGen()`. -/
def MerkleTree.proofGen (m : MerkleTree) : Except Err MerkleTree :=
  forLoop (fun i m => do
      let buf ← idx m.nodes i
      m.updateProofs buf buf.length i)
    m.nodes.length 0 m

/-- Body of the first loop of `treeBuild`: `m.leafMap[string(m.Leaves[i])] = i`. -/
def MerkleTree.leafMapBody (i : Nat) (m : MerkleTree) : Except Err MerkleTree := do
  let leaf ← idx m.Leaves i
  .ok { m with leafMap := fun k => if k = leaf then some i else m.leafMap k }

/-- Body of the inner loop of `treeBuild`, `for j := 0; j < prevLen; j += 2`, at
`j = 2 * k`: `m.nodes[i+1][j>>1] = hashFunc(concatSortHash(m.nodes[i][j], m.nodes[i][j+1]))`. -/
def MerkleTree.pairBody (H : Bytes → Bytes) (i : Nat) (k : Nat) (m : MerkleTree) :
    Except Err MerkleTree := do
  let j := 2 * k
  let lo ← idx m.nodes i
  let a ← idx lo j
  let b ← idx lo (j + 1)
  let h ← hashFunc H (concatSortHash a b)
  let hi ← idx m.nodes (i + 1)
  let hi ← setIdx hi (j >>> 1) h
  let ns ← setIdx m.nodes (i + 1) hi
  .ok { m with nodes := ns }

/-- Body of the level loop of `treeBuild`, `for i := uint32(0); i < m.Depth-1; i++`;
the state is the tree and the local `prevLen`. -/
def MerkleTree.levelBody (H : Bytes → Bytes) (i : Nat) (st : MerkleTree × Nat) :
    Except Err (MerkleTree × Nat) := do
  let (m, prevLen) := st
  let ns ← setIdx m.nodes (i + 1) (List.replicate (prevLen >>> 1) [])
  let m : MerkleTree := { m with nodes := ns }
  let m ← forLoop (MerkleTree.pairBody H i) ((prevLen + 1) / 2) 0 m
  let hi ← idx m.nodes (i + 1)
  let (buf, prevLen) ← MerkleTree.fixOdd hi hi.length
  let ns ← setIdx m.nodes (i + 1) buf
  .ok ({ m with nodes := ns }, prevLen)

/-- Source: `func (m *MerkleTree) treeBuild() (err error)`.  The
`fmt.Println` of the source only writes to standard output and is left out.
`m.Depth - 1` is only reached with `m.Depth ≥ 1`: with `m.Depth = 0` the
assignment to `m.nodes[0]` has already panicked. -/
def MerkleTree.treeBuild (H : Bytes → Bytes) (m : MerkleTree) : Except Err MerkleTree := do
  let m ← forLoop MerkleTree.leafMapBody m.NumLeaves 0 m
  let m : MerkleTree := { m with nodes := List.replicate m.Depth [] }
  let ns ← setIdx m.nodes 0 (List.replicate m.NumLeaves [])
  let m : MerkleTree := { m with nodes := ns }
  let n0 ← idx m.nodes 0
  let ns ← setIdx m.nodes 0 (copySlice n0 m.Leaves)
  let m : MerkleTree := { m with nodes := ns }
  let n0 ← idx m.nodes 0
  let (buf, prevLen) ← MerkleTree.fixOdd n0 m.NumLeaves
  let ns ← setIdx m.nodes 0 buf
  let m : MerkleTree := { m with nodes := ns }
  let (m, _) ← forLoop (MerkleTree.levelBody H) (m.Depth - 1) 0 (m, prevLen)
  let top ← idx m.nodes (m.Depth - 1)
  let a ← idx top 0
  let b ← idx top 1
  let root ← hashFunc H (concatSortHash a b)
  let m : MerkleTree := { m with Root := root }
  let m ← m.initProofs
  m.proofGen

/-- Source: `func New(blocks []Block) (m *MerkleTree, err error)`. -/
def New (H : Bytes → Bytes) (blocks : List Block) : Except Err MerkleTree :=
  if blocks.length ≤ 1 then .error .tooFewBlocks
  else do
    let m : MerkleTree :=
      { leafMap := fun _ => none, nodes := [], Root := [], Leaves := [], Proofs := [],
        Depth := callTreeDepth blocks.length, NumLeaves := blocks.length }
    let leaves ← m.leafGen H blocks
    let m : MerkleTree := { m with Leaves := leaves }
    m.treeBuild H

/-- Source: `func verify(dataBlock Block, proof *Proof, root []byte) (bool, error)`
on the values of the slices.  This is what the code does when no sibling has
spare capacity (`verifyMem_eq_verify`), as for the proofs of the tree;
`verifyMem` is the function on slices in shared memory. -/
def verify (H : Bytes → Bytes) (dataBlock : Block) (proof : Option Proof) (root : Bytes) :
    Except Err Bool :=
  match proof with
  | none => .error .nilProof
  | some proof => do
    let leaf ← leafFromBlock H dataBlock
    let res := copySlice (List.replicate leaf.length 0) leaf
    let res ← forLoop (fun i res => do
        let s ← idx proof.Siblings i
        hashFunc H (concatSortHash res s))
      proof.Siblings.length 0 res
    .ok (decide (res = root))

/-- Source: `func (m *MerkleTree) Verify(dataBlock Block, proof *Proof) (bool, error)`. -/
def MerkleTree.Verify (H : Bytes → Bytes) (m : MerkleTree) (dataBlock : Block)
    (proof : Option Proof) : Except Err Bool :=
  verify H dataBlock proof m.Root

/-- Body of the loop of `MerkleTree.Proof`; the state is
`(siblings, path, idx)` and `path += 1 << i` is `uint32` arithmetic. -/
def MerkleTree.walkBody (m : MerkleTree) (i : Nat) (st : List Bytes × Nat × Nat) :
    Except Err (List Bytes × Nat × Nat) := do
  let (siblings, path, ix) := st
  if ix &&& 1 = 1 then do
    let lvl ← idx m.nodes i
    let s ← idx lvl (ix - 1)
    let siblings ← setIdx siblings i s
    .ok (siblings, path, ix >>> 1)
  else do
    let lvl ← idx m.nodes i
    let s ← idx lvl (ix + 1)
    let siblings ← setIdx siblings i s
    .ok (siblings, (path + (1 <<< i) % 2 ^ 32) % 2 ^ 32, ix >>> 1)

/-- Source: `func (m *MerkleTree) Proof(dataBlock Block) (*Proof, error)`. -/
def MerkleTree.Proof (H : Bytes → Bytes) (m : MerkleTree) (dataBlock : Block) :
    Except Err Merkle.Proof := do
  let leaf ← leafFromBlock H dataBlock
  match m.leafMap leaf with
  | none => .error .blockNotFound
  | some i0 =>
    let (siblings, path, _) ← forLoop m.walkBody m.Depth 0 (List.replicate m.Depth [], 0, i0)
    .ok { Siblings := siblings, Path := path }

/-! ## The source on Go's own integers and memory

Two places where the translation above is exact only on part of the inputs are
translated a second time, exactly.  `callTreeDepthInt64` is `callTreeDepth` on
a 64-bit `int`, where `blockLen + 1` wraps; it agrees with `callTreeDepth` on
every value below the largest `int` (`callTreeDepthInt64_eq`), hence on every
slice length.  `verifyMem` is `verify` on slices that lie in memory the caller
shares with it, where `append` in `concatSortHash` writes into the spare
capacity of a sibling; it agrees with `verify` when no sibling has spare
capacity (`verifyMem_eq_verify`), as is the case for the proofs the tree
produces, whose siblings are 32-byte digests of capacity 32. -/

/-- Two's-complement wrap of a 64-bit Go `int`. -/
def wrapInt64 (x : Int) : Int := (x + 2 ^ 63) % 2 ^ 64 - 2 ^ 63

/-- The loop of `callTreeDepth` on a 64-bit `int`: `blockLen + 1` wraps, `/`
truncates toward zero, and `d++` is `uint32` arithmetic. -/
def callTreeDepthInt64Loop : Nat → Int → Nat → Nat
  | 0, _, d => d
  | fuel + 1, blockLen, d =>
    if blockLen > 1 then
      callTreeDepthInt64Loop fuel (Int.tdiv (wrapInt64 (blockLen + 1)) 2) ((d + 1) % 2 ^ 32)
    else d

/-- Source: `func callTreeDepth(blockLen int) uint32` on a 64-bit `int`.  The
loop runs at most 63 times, so 64 is enough fuel
(`callTreeDepthInt64Loop_fuel`). -/
def callTreeDepthInt64 (blockLen : Int) : Nat := callTreeDepthInt64Loop 64 blockLen 0

/-- The bytes the caller of `verify` shares with it: the backing arrays of the
caller's slices, laid out one after the other. -/
abbrev Memory := List Nat

/-- A Go slice header over `Memory`: where the slice starts, its length and its
capacity. -/
structure Slice where
  ptr : Nat
  len : Nat
  cap : Nat
  deriving DecidableEq, Repr

/-- The bytes of a slice. -/
def Slice.read (s : Slice) (mem : Memory) : Bytes := (mem.drop s.ptr).take s.len

/-- Memory after `data` was written from position `pos` on. -/
def writeAt (mem : Memory) (pos : Nat) (data : Bytes) : Memory :=
  mem.take pos ++ data ++ mem.drop (pos + data.length)

/-- Source: `type Proof struct`, as the caller holds it: the siblings are slices
over memory. -/
structure ProofRef where
  Siblings : List Slice
  Path : Nat
  deriving DecidableEq, Repr

/-- Go's `append(s, data...)` for a caller's slice `s`: when the capacity of `s`
suffices the bytes are written behind `s` in its backing array, otherwise a new
array is allocated and memory is unchanged.  The result is the concatenation
in both cases. -/
def appendTo (mem : Memory) (s : Slice) (data : Bytes) : Bytes × Memory :=
  if s.len + data.length ≤ s.cap then (s.read mem ++ data, writeAt mem (s.ptr + s.len) data)
  else (s.read mem ++ data, mem)

/-- Source: `func concatSortHash(b1, b2 []byte) []byte` as `verify` calls it:
`b1` is the running digest, a slice `verify` allocated itself with no spare
capacity (`make([]byte, len(leaf))`, then the result of `hasher.Sum(nil)`), so
`append(b1, b2...)` allocates; `b2` is a sibling of the caller, and
`append(b2, b1...)` is `appendTo`. -/
def concatSortHashMem (mem : Memory) (b1 : Bytes) (b2 : Slice) : Bytes × Memory :=
  if bytesCompare b1 (b2.read mem) < 0 then (b1 ++ b2.read mem, mem)
  else appendTo mem b2 b1

/-- Body of the loop of `verify` over memory; the state is the running digest
and the memory. -/
def verifyMemBody (H : Bytes → Bytes) (siblings : List Slice) (i : Nat)
    (st : Bytes × Memory) : Except Err (Bytes × Memory) := do
  let (res, mem) := st
  let s ← idx siblings i
  let (cat, mem) := concatSortHashMem mem res s
  let res ← hashFunc H cat
  .ok (res, mem)

/-- Source: `func verify(dataBlock Block, proof *Proof, root []byte) (bool, error)`
with the data of the block, the siblings and the root as slices over `mem`; it
returns the boolean and the memory it leaves behind. -/
def verifyMem (H : Bytes → Bytes) (mem : Memory) (data : Slice) (proof : Option ProofRef)
    (root : Slice) : Except Err (Bool × Memory) :=
  match proof with
  | none => .error .nilProof
  | some proof => do
    let leaf ← leafFromBlock H { Data := data.read mem }
    let res := copySlice (List.replicate leaf.length 0) leaf
    let (res, mem) ← forLoop (verifyMemBody H proof.Siblings) proof.Siblings.length 0 (res, mem)
    .ok (decide (res = root.read mem), mem)

/-! ## Value-level description of the tree

The definitions below are not translations of source functions: they describe,
as plain functions of the input, the values the loops of `treeBuild`,
`proofGen` and `Proof` compute, and the theorems relate them to the code. -/

/-- The slice of length `n` whose entry `i` is `g i`. -/
def tab {α : Type} (n : Nat) (g : Nat → α) : List α := (List.range n).map g

/-- The sorted-concatenation combine, `hashFunc(concatSortHash(a, b))`. -/
def combine (H : Bytes → Bytes) (a b : Bytes) : Bytes := H (concatSortHash a b)

/-- A level after `fixOdd`: an odd-length level gets a copy of its last element. -/
def pad (l : List Bytes) : List Bytes :=
  if l.length % 2 = 0 then l else l ++ [l.getD (l.length - 1) []]

/-- The parents of the adjacent pairs of a level. -/
def pairUp (H : Bytes → Bytes) (l : List Bytes) : List Bytes :=
  tab (l.length / 2) (fun j => combine H (l.getD (2 * j) []) (l.getD (2 * j + 1) []))

/-- Stored level `s` of the tree over `leaves`. -/
def level (H : Bytes → Bytes) (leaves : List Bytes) : Nat → List Bytes
  | 0 => pad leaves
  | s + 1 => pad (pairUp H (level H leaves s))

/-- Number of nodes of level `s` before padding: `s` ceiling-halvings of `n`. -/
def ulen (n : Nat) : Nat → Nat
  | 0 => n
  | s + 1 => (ulen n s + 1) / 2

/-- The leaf map after the first `i` leaves were entered (later entries win). -/
def leafMapUpTo (leaves : List Bytes) : Nat → Bytes → Option Nat
  | 0 => fun _ => none
  | i + 1 => fun k => if k = leaves.getD i [] then some i else leafMapUpTo leaves i k

/-- The sibling of the level-`s` ancestor of leaf `i`. -/
def sibling (H : Bytes → Bytes) (leaves : List Bytes) (s i : Nat) : Bytes :=
  (level H leaves s).getD (if (i / 2 ^ s) % 2 = 1 then i / 2 ^ s - 1 else i / 2 ^ s + 1) []

/-- The `uint32` path value accumulated over levels `0 .. s-1` for leaf `i`. -/
def pathUpTo : Nat → Nat → Nat
  | 0, _ => 0
  | s + 1, i =>
    if (i / 2 ^ s) % 2 = 1 then pathUpTo s i else (pathUpTo s i + 2 ^ s % 2 ^ 32) % 2 ^ 32

/-- The proof of leaf `i` restricted to levels `0 .. s-1`. -/
def walk (H : Bytes → Bytes) (leaves : List Bytes) (s i : Nat) : Proof :=
  { Siblings := tab s (fun t => sibling H leaves t i), Path := pathUpTo s i }

/-- The tree `New` returns for `blocks`, written out field by field. -/
def treeOf (H : Bytes → Bytes) (blocks : List Block) : MerkleTree :=
  let leaves := blocks.map (fun b => H b.Data)
  let d := callTreeDepth blocks.length
  { leafMap := leafMapUpTo leaves blocks.length
    nodes := tab d (level H leaves)
    Root := combine H ((level H leaves (d - 1)).getD 0 []) ((level H leaves (d - 1)).getD 1 [])
    Leaves := leaves
    Proofs := tab blocks.length (fun i => some (walk H leaves d i))
    Depth := d
    NumLeaves := blocks.length }

/-- The slice `m.nodes` once levels `0 .. i` are built (the later entries are
still the nil slices `make` put there). -/
def nodesAt (H : Bytes → Bytes) (leaves : List Bytes) (d i : Nat) : List (List Bytes) :=
  tab d (fun t => if t ≤ i then level H leaves t else [])

/-- The slice `m.nodes` while level `i + 1` is being filled: its first `k`
entries are computed. -/
def nodesMid (H : Bytes → Bytes) (leaves : List Bytes) (d i k : Nat) : List (List Bytes) :=
  tab d (fun t =>
    if t ≤ i then level H leaves t
    else if t = i + 1 then
      tab ((level H leaves i).length / 2) (fun j =>
        if j < k then
          combine H ((level H leaves i).getD (2 * j) []) ((level H leaves i).getD (2 * j + 1) [])
        else [])
    else [])

/-- The slice `m.Proofs` while `proofGen` works on level `s`: the leaves below
`T` already have their level-`s` sibling, the others not yet. -/
def proofsMid (H : Bytes → Bytes) (leaves : List Bytes) (n s T : Nat) : List (Option Proof) :=
  tab n (fun i => some (if i < T then walk H leaves (s + 1) i else walk H leaves s i))

/-- The fold `verify` performs over the siblings of a proof. -/
def foldSiblings (H : Bytes → Bytes) (start : Bytes) (siblings : List Bytes) : Bytes :=
  siblings.foldl (fun d s => combine H d s) start

/-- The byte strings `verify` hashes for block `b` and proof `p`: the data of
`b`, and at each step `t` the sorted concatenation of the running digest with
sibling `t`. -/
def verifyInput (H : Bytes → Bytes) (b : Block) (p : Proof) (u : Bytes) : Prop :=
  u = b.Data ∨
  ∃ t, t < p.Siblings.length ∧
    u = concatSortHash (foldSiblings H (H b.Data) (p.Siblings.take t)) (p.Siblings.getD t [])

/-- The byte strings hashed while the tree `m` is built from `blocks`: the data
of each block, and the sorted concatenation of each adjacent pair
`(2 * j, 2 * j + 1)` of a stored level. -/
def buildInput (blocks : List Block) (m : MerkleTree) (v : Bytes) : Prop :=
  (∃ x, x ∈ blocks ∧ v = x.Data) ∨
  ∃ s j, s < m.nodes.length ∧ 2 * j + 1 < (m.nodes.getD s []).length ∧
    v = concatSortHash ((m.nodes.getD s []).getD (2 * j) []) ((m.nodes.getD s []).getD (2 * j + 1) [])

/-- The slice `l'` is `l` with the entries at `2 * k` and `2 * k + 1` exchanged. -/
def swappedAt (k : Nat) (l l' : List Bytes) : Prop :=
  l'.length = l.length ∧ 2 * k + 1 < l.length ∧
  l'.getD (2 * k) [] = l.getD (2 * k + 1) [] ∧
  l'.getD (2 * k + 1) [] = l.getD (2 * k) [] ∧
  ∀ t, t ≠ 2 * k → t ≠ 2 * k + 1 → l'.getD t [] = l.getD t []

/-! ## Basic facts about the run-time model -/

@[simp] theorem ok_bind {α β : Type} (a : α) (f : α → Except Err β) :
    (Except.ok a >>= f) = f a := rfl

theorem idx_of_getElem? {α : Type} {l : List α} {i : Nat} {v : α} (h : l[i]? = some v) :
    idx l i = .ok v := by
  simp [idx, h]

theorem idx_getD {l : List Bytes} {i : Nat} (h : i < l.length) :
    idx l i = .ok (l.getD i []) := by
  simp [idx, List.getD_eq_getElem?_getD, List.getElem?_eq_getElem h]

theorem setIdx_of_lt {α : Type} {l : List α} {i : Nat} (v : α) (h : i < l.length) :
    setIdx l i v = .ok (l.set i v) := by
  simp [setIdx, h]

/-- Invariant rule for `forLoop`: an invariant the body maintains without
failing holds of the state the loop returns. -/
theorem forLoop_inv {σ : Type} (body : Nat → σ → Except Err σ) (Inv : Nat → σ → Prop) :
    ∀ (cnt start : Nat) (s : σ), Inv start s →
      (∀ i t, start ≤ i → i < start + cnt → Inv i t → ∃ t', body i t = .ok t' ∧ Inv (i + 1) t') →
      ∃ s', forLoop body cnt start s = .ok s' ∧ Inv (start + cnt) s' := by
  intro cnt
  induction cnt with
  | zero => intro start s h0 _; exact ⟨s, rfl, by simpa using h0⟩
  | succ c ih =>
    intro start s h0 hstep
    obtain ⟨t', hb, hinv⟩ := hstep start s (Nat.le_refl _) (by omega) h0
    obtain ⟨s', hl, hI⟩ := ih (start + 1) t' hinv
      (fun i t h1 h2 h3 => hstep i t (by omega) (by omega) h3)
    refine ⟨s', ?_, ?_⟩
    · simp [forLoop, hb, hl]
    · have : start + (c + 1) = start + 1 + c := by omega
      rw [this]; exact hI

/-- Equational form of the invariant rule: the state after `j - start` rounds is
`f j`. -/
theorem forLoop_eq {σ : Type} (body : Nat → σ → Except Err σ) (f : Nat → σ)
    (cnt start : Nat)
    (hstep : ∀ i, start ≤ i → i < start + cnt → body i (f i) = .ok (f (i + 1))) :
    forLoop body cnt start (f start) = .ok (f (start + cnt)) := by
  obtain ⟨s', h1, h2⟩ := forLoop_inv body (fun i t => t = f i) cnt start (f start) rfl
    (fun i t h1 h2 h3 => ⟨f (i + 1), by rw [h3]; exact hstep i h1 h2, rfl⟩)
  rw [h1, h2]

/-! ## Depth -/

theorem callTreeDepthLoop_add (fuel n d : Nat) :
    callTreeDepthLoop fuel n d = callTreeDepthLoop fuel n 0 + d := by
  induction fuel generalizing n d with
  | zero => simp [callTreeDepthLoop]
  | succ f ih =>
    simp only [callTreeDepthLoop]
    split
    · rw [ih ((n + 1) / 2) (d + 1), ih ((n + 1) / 2) (0 + 1)]; omega
    · simp

theorem callTreeDepthLoop_fuel (fuel n : Nat) (h : n ≤ fuel) :
    callTreeDepthLoop fuel n 0 = callTreeDepthLoop n n 0 := by
  induction fuel using Nat.strong_induction_on generalizing n with
  | _ fuel ih =>
    cases fuel with
    | zero =>
      have : n = 0 := by omega
      subst this; rfl
    | succ f =>
      cases n with
      | zero => simp [callTreeDepthLoop]
      | succ k =>
        simp only [callTreeDepthLoop]
        split
        · rw [callTreeDepthLoop_add f, callTreeDepthLoop_add k]
          have e1 := ih f (by omega) ((k + 1 + 1) / 2) (by omega)
          have e2 := ih k (by omega) ((k + 1 + 1) / 2) (by omega)
          rw [e1.trans e2.symm]
        · rfl

/-- The source loop, one round at a time. -/
theorem callTreeDepth_unfold (n : Nat) :
    callTreeDepth n = if 1 < n then callTreeDepth ((n + 1) / 2) + 1 else 0 := by
  unfold callTreeDepth
  cases n with
  | zero => simp [callTreeDepthLoop]
  | succ k =>
    simp only [callTreeDepthLoop]
    by_cases h : 1 < k + 1
    · have h' : k + 1 > 1 := h
      rw [if_pos h', if_pos h, callTreeDepthLoop_add, callTreeDepthLoop_fuel k _ (by omega)]
    · have h' : ¬ (k + 1 > 1) := h
      rw [if_neg h', if_neg h]

theorem callTreeDepth_le_one (n : Nat) (h : n ≤ 1) : callTreeDepth n = 0 := by
  rw [callTreeDepth_unfold, if_neg (by omega)]

theorem callTreeDepth_pos (n : Nat) (h : 2 ≤ n) : 1 ≤ callTreeDepth n := by
  rw [callTreeDepth_unfold, if_pos (by omega)]; omega

theorem ulen_shift (n s : Nat) : ulen n (s + 1) = ulen ((n + 1) / 2) s := by
  induction s with
  | zero => rfl
  | succ s ih => rw [ulen, ih]; rfl

theorem ulen_eq_iterate (n s : Nat) : ulen n s = (fun x => (x + 1) / 2)^[s] n := by
  induction s generalizing n with
  | zero => rfl
  | succ s ih => rw [ulen_shift, ih, Function.iterate_succ_apply]

/-- The top stored level has two nodes before (and after) padding. -/
theorem ulen_top (n : Nat) (h : 2 ≤ n) : ulen n (callTreeDepth n - 1) = 2 := by
  induction n using Nat.strong_induction_on with
  | _ n ih =>
    rw [callTreeDepth_unfold, if_pos (by omega)]
    by_cases h2 : n = 2
    · subst h2; decide
    · have hpos := callTreeDepth_pos ((n + 1) / 2) (by omega)
      have hs : callTreeDepth ((n + 1) / 2) + 1 - 1 = (callTreeDepth ((n + 1) / 2) - 1) + 1 := by
        omega
      rw [hs, ulen_shift]
      exact ih ((n + 1) / 2) (by omega) (by omega)

theorem ulen_ge_two (n : Nat) (h : 2 ≤ n) (s : Nat) (hs : s < callTreeDepth n) :
    2 ≤ ulen n s := by
  induction s generalizing n with
  | zero => exact h
  | succ s ih =>
    rw [callTreeDepth_unfold, if_pos (by omega)] at hs
    rw [ulen_shift]
    have h1 : s < callTreeDepth ((n + 1) / 2) := by omega
    have h2 : 2 ≤ (n + 1) / 2 := by
      by_contra hc
      rw [callTreeDepth_le_one _ (by omega)] at h1
      omega
    exact ih _ h2 h1

theorem ulen_callTreeDepth (n : Nat) (h : 1 ≤ n) : ulen n (callTreeDepth n) = 1 := by
  induction n using Nat.strong_induction_on with
  | _ n ih =>
    rw [callTreeDepth_unfold]
    by_cases h1 : 1 < n
    · rw [if_pos h1, ulen_shift]
      exact ih _ (by omega) (by omega)
    · rw [if_neg h1]
      simp [ulen]; omega

theorem ulen_le_pow (n s : Nat) : n ≤ 2 ^ s * ulen n s := by
  induction s generalizing n with
  | zero => simp [ulen]
  | succ s ih =>
    rw [ulen_shift]
    have := ih ((n + 1) / 2)
    have h2 : 2 ^ (s + 1) * ulen ((n + 1) / 2) s = 2 * (2 ^ s * ulen ((n + 1) / 2) s) := by
      rw [pow_succ]; ring
    omega

theorem ulen_lt_pow (n s : Nat) (h : 1 ≤ n) : 2 ^ s * (ulen n s - 1) < n := by
  induction s generalizing n with
  | zero => simp [ulen]; omega
  | succ s ih =>
    rw [ulen_shift]
    have := ih ((n + 1) / 2) (by omega)
    have h2 : 2 ^ (s + 1) * (ulen ((n + 1) / 2) s - 1) =
        2 * (2 ^ s * (ulen ((n + 1) / 2) s - 1)) := by
      rw [pow_succ]; ring
    omega

theorem le_pow_callTreeDepth (n : Nat) (h : 1 ≤ n) : n ≤ 2 ^ callTreeDepth n := by
  have := ulen_le_pow n (callTreeDepth n)
  rwa [ulen_callTreeDepth n h, Nat.mul_one] at this

theorem callTreeDepth_le_of_le_pow (n d : Nat) (h : n ≤ 2 ^ d) : callTreeDepth n ≤ d := by
  by_contra hc
  have hd : d < callTreeDepth n := by omega
  have hn : 2 ≤ n := by
    by_contra h1
    rw [callTreeDepth_le_one n (by omega)] at hd
    omega
  have h2 := ulen_ge_two n hn d hd
  have h3 := ulen_lt_pow n d (by omega)
  have h4 : 2 ^ d * 1 ≤ 2 ^ d * (ulen n d - 1) := Nat.mul_le_mul_left _ (by omega)
  omega

/-! ## Slices as tabulated functions -/

theorem tab_length {α : Type} (n : Nat) (g : Nat → α) : (tab n g).length = n := by
  simp [tab]

theorem getElem?_tab {α : Type} (n : Nat) (g : Nat → α) (i : Nat) :
    (tab n g)[i]? = if i < n then some (g i) else none := by
  unfold tab
  by_cases h : i < n
  · simp [h, List.getElem?_range h]
  · simp [h, List.getElem?_eq_none (l := List.range n) (by simpa using h)]

theorem tab_congr {α : Type} (n : Nat) (g g' : Nat → α) (h : ∀ i, i < n → g i = g' i) :
    tab n g = tab n g' := by
  apply List.ext_getElem?
  intro i
  rw [getElem?_tab, getElem?_tab]
  by_cases hi : i < n
  · simp [hi, h i hi]
  · simp [hi]

theorem idx_tab {α : Type} (n : Nat) (g : Nat → α) (i : Nat) (h : i < n) :
    idx (tab n g) i = .ok (g i) :=
  idx_of_getElem? (by rw [getElem?_tab, if_pos h])

theorem setIdx_tab {α : Type} (n : Nat) (g : Nat → α) (i : Nat) (v : α) (h : i < n) :
    setIdx (tab n g) i v = .ok (tab n (fun j => if j = i then v else g j)) := by
  rw [setIdx_of_lt v (by rw [tab_length]; exact h)]
  congr 1
  apply List.ext_getElem?
  intro j
  rw [List.getElem?_set, getElem?_tab, getElem?_tab, tab_length]
  by_cases hj : j = i
  · subst hj; simp [h]
  · have : ¬ i = j := fun e => hj e.symm
    simp [hj, this]

theorem replicate_eq_tab {α : Type} (n : Nat) (a : α) : List.replicate n a = tab n (fun _ => a) := by
  apply List.ext_getElem?
  intro i
  rw [getElem?_tab, List.getElem?_replicate]

theorem getD_tab (n : Nat) (g : Nat → Bytes) (i : Nat) (h : i < n) :
    (tab n g).getD i [] = g i := by
  simp [List.getD_eq_getElem?_getD, getElem?_tab, h]

theorem tab_succ {α : Type} (n : Nat) (g : Nat → α) : tab (n + 1) g = tab n g ++ [g n] := by
  simp [tab, List.range_succ]

theorem tab_map_getD {α : Type} (l : List Block) (f : Block → α) :
    tab l.length (fun i => f (l.getD i ⟨[]⟩)) = l.map f := by
  apply List.ext_getElem?
  intro i
  rw [getElem?_tab]
  by_cases h : i < l.length
  · simp [h, List.getD_eq_getElem?_getD, List.getElem?_eq_getElem h]
  · simp [h, List.getElem?_eq_none (l := l) (by simpa using h)]

/-! ## Levels -/

theorem pad_length (l : List Bytes) : (pad l).length = l.length + l.length % 2 := by
  unfold pad
  split
  · omega
  · simp; omega

theorem pad_getD_lt (l : List Bytes) (j : Nat) (h : j < l.length) :
    (pad l).getD j [] = l.getD j [] := by
  unfold pad
  split
  · rfl
  · simp [List.getD_eq_getElem?_getD, List.getElem?_append_left h]

theorem pad_getD_last (l : List Bytes) (h : l.length % 2 = 1) :
    (pad l).getD l.length [] = l.getD (l.length - 1) [] := by
  unfold pad
  rw [if_neg (by omega)]
  simp [List.getD_eq_getElem?_getD, List.getElem?_append_right (Nat.le_refl _)]

theorem pairUp_length (H : Bytes → Bytes) (l : List Bytes) :
    (pairUp H l).length = l.length / 2 := by
  simp [pairUp, tab_length]

theorem pairUp_getD (H : Bytes → Bytes) (l : List Bytes) (j : Nat) (h : j < l.length / 2) :
    (pairUp H l).getD j [] = combine H (l.getD (2 * j) []) (l.getD (2 * j + 1) []) := by
  unfold pairUp
  rw [getD_tab _ _ _ h]

theorem level_length (H : Bytes → Bytes) (leaves : List Bytes) (s : Nat) :
    (level H leaves s).length = ulen leaves.length s + ulen leaves.length s % 2 := by
  induction s with
  | zero => simp [level, ulen, pad_length]
  | succ s ih =>
    simp only [level, ulen]
    rw [pad_length, pairUp_length, ih]
    omega

theorem level_length_even (H : Bytes → Bytes) (leaves : List Bytes) (s : Nat) :
    (level H leaves s).length % 2 = 0 := by
  rw [level_length]; omega

theorem level_half (H : Bytes → Bytes) (leaves : List Bytes) (s : Nat) :
    (level H leaves s).length / 2 = ulen leaves.length (s + 1) := by
  rw [level_length]; simp only [ulen]; omega

theorem ulen_le_level_length (H : Bytes → Bytes) (leaves : List Bytes) (s : Nat) :
    ulen leaves.length s ≤ (level H leaves s).length := by
  rw [level_length]; omega

/-- A node of level `s+1` below the unpadded length is the combine of its two
children on level `s`. -/
theorem level_succ_getD (H : Bytes → Bytes) (leaves : List Bytes) (s j : Nat)
    (h : j < ulen leaves.length (s + 1)) :
    (level H leaves (s + 1)).getD j [] =
      combine H ((level H leaves s).getD (2 * j) []) ((level H leaves s).getD (2 * j + 1) []) := by
  have hl : j < (pairUp H (level H leaves s)).length := by
    rw [pairUp_length, level_half]; exact h
  simp only [level]
  rw [pad_getD_lt _ _ hl, pairUp_getD _ _ _ (by rwa [pairUp_length] at hl)]

theorem level_zero_getD (H : Bytes → Bytes) (leaves : List Bytes) (j : Nat)
    (h : j < leaves.length) : (level H leaves 0).getD j [] = leaves.getD j [] := by
  simp only [level]; exact pad_getD_lt _ _ h

/-- What `fixOdd` returns when called, as everywhere in `treeBuild`, with the
length of the slice. -/
theorem fixOdd_eq (buf : List Bytes) :
    MerkleTree.fixOdd buf buf.length = .ok (pad buf, (pad buf).length) := by
  unfold MerkleTree.fixOdd
  rw [Nat.and_one_is_mod]
  by_cases h : buf.length % 2 = 0
  · simp [h, pad]
  · have hpos : buf.length - 1 < buf.length := by omega
    rw [if_neg h, idx_getD hpos]
    simp [pad, h]

theorem pairBody_step (H : Bytes → Bytes) (m : MerkleTree) (leaves : List Bytes) (d i k : Nat)
    (hi : i + 1 < d) (hk : k < (level H leaves i).length / 2) :
    MerkleTree.pairBody H i k { m with nodes := nodesMid H leaves d i k } =
      .ok { m with nodes := nodesMid H leaves d i (k + 1) } := by
  have h2 : (2 * k) >>> 1 = k := by
    rw [Nat.shiftRight_eq_div_pow]; omega
  simp only [MerkleTree.pairBody, nodesMid]
  rw [idx_tab _ _ i (by omega)]
  simp only [Nat.le_refl, if_true, ok_bind]
  rw [idx_getD (show 2 * k < (level H leaves i).length by omega)]
  simp only [ok_bind]
  rw [idx_getD (show 2 * k + 1 < (level H leaves i).length by omega)]
  simp only [ok_bind, hashFunc]
  rw [idx_tab _ _ (i + 1) (by omega)]
  simp only [show ¬ (i + 1 ≤ i) by omega, if_false, if_true, ok_bind, h2]
  rw [setIdx_tab _ _ _ _ hk]
  simp only [ok_bind]
  rw [setIdx_tab _ _ _ _ (show i + 1 < d by omega)]
  simp only [ok_bind]
  congr 2
  apply tab_congr
  intro t _
  by_cases h1 : t = i + 1
  · subst h1
    simp only [if_true, show ¬ (i + 1 ≤ i) by omega, if_false]
    apply tab_congr
    intro j _
    by_cases hj : j = k
    · subst hj; simp [combine]
    · by_cases hlt : j < k
      · simp [hj, hlt, Nat.lt_succ_of_lt hlt]
      · have : ¬ j < k + 1 := by omega
        simp [hj, hlt, this]
  · simp [h1]

theorem pairLoop_eq (H : Bytes → Bytes) (m : MerkleTree) (leaves : List Bytes) (d i : Nat)
    (hi : i + 1 < d) :
    forLoop (MerkleTree.pairBody H i) ((level H leaves i).length / 2) 0
        { m with nodes := nodesMid H leaves d i 0 } =
      .ok { m with nodes := nodesMid H leaves d i ((level H leaves i).length / 2) } := by
  have key := forLoop_eq (MerkleTree.pairBody H i)
    (fun k => { m with nodes := nodesMid H leaves d i k }) ((level H leaves i).length / 2) 0
    (fun k _ hk => pairBody_step H m leaves d i k hi (by omega))
  simpa using key

theorem nodesMid_full (H : Bytes → Bytes) (leaves : List Bytes) (d i : Nat) :
    nodesMid H leaves d i ((level H leaves i).length / 2) =
      tab d (fun t => if t ≤ i then level H leaves t
        else if t = i + 1 then pairUp H (level H leaves i) else []) := by
  unfold nodesMid
  apply tab_congr
  intro t _
  by_cases h1 : t ≤ i
  · simp [h1]
  · by_cases h2 : t = i + 1
    · subst h2
      simp only [show ¬ (i + 1 ≤ i) by omega, if_true, if_false, pairUp]
      apply tab_congr
      intro j hj
      simp [hj]
    · simp [h1, h2]

theorem levelBody_step (H : Bytes → Bytes) (m : MerkleTree) (leaves : List Bytes) (d i : Nat)
    (hi : i + 1 < d) :
    MerkleTree.levelBody H i
        ({ m with nodes := nodesAt H leaves d i }, (level H leaves i).length) =
      .ok ({ m with nodes := nodesAt H leaves d (i + 1) }, (level H leaves (i + 1)).length) := by
  have hev := level_length_even H leaves i
  have hc : ((level H leaves i).length + 1) / 2 = (level H leaves i).length / 2 := by omega
  have hs : (level H leaves i).length >>> 1 = (level H leaves i).length / 2 := by
    rw [Nat.shiftRight_eq_div_pow, Nat.pow_one]
  have hmid : (tab d fun j => if j = i + 1 then
        List.replicate ((level H leaves i).length / 2) ([] : Bytes)
        else if j ≤ i then level H leaves j else []) = nodesMid H leaves d i 0 := by
    unfold nodesMid
    apply tab_congr
    intro t _
    by_cases h1 : t = i + 1
    · subst h1
      simp only [if_true, show ¬ (i + 1 ≤ i) by omega, if_false, replicate_eq_tab]
      apply tab_congr
      intro j _
      simp
    · simp [h1]
  simp only [MerkleTree.levelBody, nodesAt, hs, hc]
  rw [setIdx_tab _ _ _ _ hi]
  simp only [ok_bind, hmid]
  rw [pairLoop_eq H _ leaves d i hi]
  simp only [ok_bind, nodesMid_full]
  rw [idx_tab _ _ _ hi]
  simp only [show ¬ (i + 1 ≤ i) by omega, if_false, if_true, ok_bind, fixOdd_eq]
  rw [setIdx_tab _ _ _ _ hi]
  simp only [ok_bind]
  congr 3
  apply tab_congr
  intro t _
  by_cases h1 : t = i + 1
  · subst h1; simp [level]
  · by_cases h2 : t ≤ i
    · simp [h1, h2, Nat.le_succ_of_le h2]
    · have : ¬ t ≤ i + 1 := by omega
      simp [h1, h2, this]

theorem levelLoop_eq (H : Bytes → Bytes) (m : MerkleTree) (leaves : List Bytes) (d : Nat)
    (hd : 1 ≤ d) :
    forLoop (MerkleTree.levelBody H) (d - 1) 0
        ({ m with nodes := nodesAt H leaves d 0 }, (level H leaves 0).length) =
      .ok ({ m with nodes := tab d (level H leaves) }, (level H leaves (d - 1)).length) := by
  have key := forLoop_eq (MerkleTree.levelBody H)
    (fun i => (({ m with nodes := nodesAt H leaves d i } : MerkleTree), (level H leaves i).length))
    (d - 1) 0
    (fun i _ hi => levelBody_step H m leaves d i (by omega))
  simp only [Nat.zero_add] at key
  rw [key]
  congr 3
  unfold nodesAt
  apply tab_congr
  intro t ht
  simp [show t ≤ d - 1 by omega]

/-! ## The loops of `initProofs` and `proofGen` -/

theorem initProofs_eq (H : Bytes → Bytes) (leaves : List Bytes) (m : MerkleTree) :
    m.initProofs = .ok { m with Proofs := proofsMid H leaves m.NumLeaves 0 0 } := by
  unfold MerkleTree.initProofs
  have key := forLoop_eq
    (fun i (m : MerkleTree) => do
      let ps ← setIdx m.Proofs i (some { Siblings := [], Path := 0 })
      .ok { m with Proofs := ps })
    (fun i => { m with
      Proofs := tab m.NumLeaves
        (fun j => if j < i then some ({ Siblings := [], Path := 0 } : Proof) else none) })
    m.NumLeaves 0 (by
      intro i _ hi
      simp only []
      rw [setIdx_tab _ _ _ _ (by omega)]
      simp only [ok_bind]
      congr 2
      apply tab_congr
      intro j _
      by_cases hj : j = i
      · subst hj; simp
      · by_cases hlt : j < i
        · simp [hj, hlt, Nat.lt_succ_of_lt hlt]
        · have : ¬ j < i + 1 := by omega
          simp [hj, hlt, this])
  simp only [Nat.zero_add, Nat.not_lt_zero, if_false] at key
  rw [replicate_eq_tab, key]
  congr 2
  unfold proofsMid
  apply tab_congr
  intro j hj
  simp [hj, walk, tab, pathUpTo]

theorem proofsMid_congr (H : Bytes → Bytes) (leaves : List Bytes) (n s T T' : Nat)
    (h : ∀ i, i < n → (i < T ↔ i < T')) :
    proofsMid H leaves n s T = proofsMid H leaves n s T' := by
  unfold proofsMid
  apply tab_congr
  intro i hi
  by_cases h1 : i < T
  · simp [h1, (h i hi).mp h1]
  · have : ¬ i < T' := fun h2 => h1 ((h i hi).mpr h2)
    simp [h1, this]

theorem proofsMid_next (H : Bytes → Bytes) (leaves : List Bytes) (n s T : Nat) (h : n ≤ T) :
    proofsMid H leaves n s T = proofsMid H leaves n (s + 1) 0 := by
  unfold proofsMid
  apply tab_congr
  intro i hi
  simp [show i < T by omega]

theorem walk_succ_even (H : Bytes → Bytes) (leaves : List Bytes) (s i : Nat)
    (h : (i / 2 ^ s) % 2 = 0) :
    walk H leaves (s + 1) i =
      { Siblings := (walk H leaves s i).Siblings ++ [(level H leaves s).getD (i / 2 ^ s + 1) []],
        Path := ((walk H leaves s i).Path + (1 <<< s) % 2 ^ 32) % 2 ^ 32 } := by
  simp [walk, tab_succ, sibling, pathUpTo, h, Nat.one_shiftLeft]

theorem walk_succ_odd (H : Bytes → Bytes) (leaves : List Bytes) (s i : Nat)
    (h : (i / 2 ^ s) % 2 = 1) :
    walk H leaves (s + 1) i =
      { Siblings := (walk H leaves s i).Siblings ++ [(level H leaves s).getD (i / 2 ^ s - 1) []],
        Path := (walk H leaves s i).Path } := by
  simp [walk, tab_succ, sibling, pathUpTo, h]

theorem div_pow_of_range (s a i : Nat) (h1 : a * 2 ^ s ≤ i) (h2 : i < a * 2 ^ s + 2 ^ s) :
    i / 2 ^ s = a := by
  apply Nat.div_eq_of_lt_le
  · exact h1
  · rw [Nat.succ_mul]; exact h2

theorem leftBody_step (H : Bytes → Bytes) (leaves : List Bytes) (m : MerkleTree)
    (n s i0 i : Nat) (hi : i < n) (hdiv : i / 2 ^ s = i0) (hev : i0 % 2 = 0)
    (hbuf : i0 + 1 < (level H leaves s).length) :
    MerkleTree.leftBody (level H leaves s) i0 s i
        { m with Proofs := proofsMid H leaves n s i } =
      .ok { m with Proofs := proofsMid H leaves n s (i + 1) } := by
  simp only [MerkleTree.leftBody, proofsMid]
  rw [idx_tab _ _ _ hi, idx_getD hbuf]
  simp only [ok_bind, deref, Nat.lt_irrefl, if_false]
  rw [setIdx_tab _ _ _ _ hi]
  simp only [ok_bind]
  rw [idx_tab _ _ _ hi]
  simp only [ok_bind, deref, if_true]
  rw [setIdx_tab _ _ _ _ hi]
  simp only [ok_bind]
  congr 2
  apply tab_congr
  intro j _
  by_cases hj : j = i
  · subst hj
    simp only [if_true, Nat.lt_succ_self]
    rw [walk_succ_even H leaves s j (by rw [hdiv]; exact hev), hdiv]
  · by_cases hlt : j < i
    · simp [hj, hlt, Nat.lt_succ_of_lt hlt]
    · have : ¬ j < i + 1 := by omega
      simp [hj, hlt, this]

theorem rightBody_step (H : Bytes → Bytes) (leaves : List Bytes) (m : MerkleTree)
    (n s i0 i : Nat) (hi : i < n) (hdiv : i / 2 ^ s = i0 + 1) (hev : i0 % 2 = 0)
    (hbuf : i0 + 1 < (level H leaves s).length) :
    MerkleTree.rightBody (level H leaves s) i0 i
        { m with Proofs := proofsMid H leaves n s i } =
      .ok { m with Proofs := proofsMid H leaves n s (i + 1) } := by
  simp only [MerkleTree.rightBody, proofsMid]
  rw [idx_tab _ _ _ hi, idx_getD (show i0 < (level H leaves s).length by omega)]
  simp only [ok_bind, deref, Nat.lt_irrefl, if_false]
  rw [setIdx_tab _ _ _ _ hi]
  simp only [ok_bind]
  congr 2
  apply tab_congr
  intro j _
  by_cases hj : j = i
  · subst hj
    simp only [if_true, Nat.lt_succ_self]
    rw [walk_succ_odd H leaves s j (by rw [hdiv]; omega), hdiv]
    simp
  · by_cases hlt : j < i
    · simp [hj, hlt, Nat.lt_succ_of_lt hlt]
    · have : ¬ j < i + 1 := by omega
      simp [hj, hlt, this]

theorem min_eq (a b : Nat) : Merkle.min a b = Nat.min a b := by
  unfold Merkle.min
  split
  · exact (Nat.min_eq_left (by omega)).symm
  · exact (Nat.min_eq_right (by omega)).symm

/-- One of the two loops of `updatePairProofs`, started at `start`, moves the
threshold of `proofsMid` from `start` to `start + batch`. -/
theorem rangeLoop_eq (H : Bytes → Bytes) (leaves : List Bytes) (m : MerkleTree)
    (body : Nat → MerkleTree → Except Err MerkleTree) (n s start batch : Nat)
    (hstep : ∀ i, start ≤ i → i < start + batch → i < n →
      body i { m with Proofs := proofsMid H leaves n s i } =
        .ok { m with Proofs := proofsMid H leaves n s (i + 1) }) :
    forLoop body (Merkle.min (start + batch) n - start) start
        { m with Proofs := proofsMid H leaves n s start } =
      .ok { m with Proofs := proofsMid H leaves n s (start + batch) } := by
  have hmin : Merkle.min (start + batch) n ≤ start + batch ∧ Merkle.min (start + batch) n ≤ n ∧
      (Merkle.min (start + batch) n = start + batch ∨ Merkle.min (start + batch) n = n) := by
    rw [min_eq]
    refine ⟨Nat.min_le_left _ _, Nat.min_le_right _ _, ?_⟩
    rcases Nat.le_total (start + batch) n with h | h
    · left; exact Nat.min_eq_left h
    · right; exact Nat.min_eq_right h
  have key := forLoop_eq body (fun i => { m with Proofs := proofsMid H leaves n s i })
    (Merkle.min (start + batch) n - start) start
    (fun i h1 h2 => hstep i h1 (by omega) (by omega))
  simp only [] at key
  rw [key]
  congr 2
  apply proofsMid_congr
  intro i hi
  omega

theorem updatePairProofs_eq (H : Bytes → Bytes) (leaves : List Bytes) (m : MerkleTree)
    (s k : Nat) (hbuf : 2 * k + 1 < (level H leaves s).length) :
    MerkleTree.updatePairProofs
        { m with Proofs := proofsMid H leaves m.NumLeaves s (2 * k * 2 ^ s) }
        (level H leaves s) (2 * k) (1 <<< s) s =
      .ok { m with Proofs := proofsMid H leaves m.NumLeaves s (2 * (k + 1) * 2 ^ s) } := by
  simp only [MerkleTree.updatePairProofs, Nat.one_shiftLeft]
  rw [rangeLoop_eq H leaves m (MerkleTree.leftBody (level H leaves s) (2 * k) s)
    m.NumLeaves s (2 * k * 2 ^ s) (2 ^ s)
    (fun i h1 h2 h3 => leftBody_step H leaves m m.NumLeaves s (2 * k) i h3
      (div_pow_of_range s (2 * k) i h1 h2) (by omega) hbuf)]
  simp only [ok_bind]
  rw [rangeLoop_eq H leaves m (MerkleTree.rightBody (level H leaves s) (2 * k))
    m.NumLeaves s (2 * k * 2 ^ s + 2 ^ s) (2 ^ s)
    (fun i h1 h2 h3 => rightBody_step H leaves m m.NumLeaves s (2 * k) i h3
      (div_pow_of_range s (2 * k + 1) i (by rw [Nat.succ_mul]; exact h1)
        (by rw [Nat.succ_mul]; exact h2)) (by omega) hbuf)]
  congr 3
  ring

theorem updateProofs_eq (H : Bytes → Bytes) (leaves : List Bytes) (m : MerkleTree) (s : Nat)
    (hn : m.NumLeaves = leaves.length) :
    MerkleTree.updateProofs { m with Proofs := proofsMid H leaves m.NumLeaves s 0 }
        (level H leaves s) (level H leaves s).length s =
      .ok { m with Proofs := proofsMid H leaves m.NumLeaves (s + 1) 0 } := by
  have hev := level_length_even H leaves s
  have hc : ((level H leaves s).length + 1) / 2 = (level H leaves s).length / 2 := by omega
  simp only [MerkleTree.updateProofs, hc]
  have key := forLoop_eq
    (fun k (m : MerkleTree) => m.updatePairProofs (level H leaves s) (2 * k) (1 <<< s) s)
    (fun k => { m with Proofs := proofsMid H leaves m.NumLeaves s (2 * k * 2 ^ s) })
    ((level H leaves s).length / 2) 0
    (fun k _ hk => updatePairProofs_eq H leaves m s k (by omega))
  simp only [Nat.zero_add, Nat.mul_zero, Nat.zero_mul] at key
  rw [key]
  congr 2
  apply proofsMid_next
  have h1 := ulen_le_pow leaves.length s
  have h2 := ulen_le_level_length H leaves s
  have h3 : 2 * ((level H leaves s).length / 2) = (level H leaves s).length := by omega
  rw [h3, hn, Nat.mul_comm]
  exact Nat.le_trans h1 (Nat.mul_le_mul_left _ h2)

theorem proofGen_eq (H : Bytes → Bytes) (leaves : List Bytes) (m : MerkleTree) (d : Nat)
    (hn : m.NumLeaves = leaves.length) (hnodes : m.nodes = tab d (level H leaves)) :
    MerkleTree.proofGen { m with Proofs := proofsMid H leaves m.NumLeaves 0 0 } =
      .ok { m with Proofs := proofsMid H leaves m.NumLeaves d 0 } := by
  have hlen : m.nodes.length = d := by rw [hnodes, tab_length]
  have key := forLoop_eq
    (fun i (m : MerkleTree) => do
      let buf ← idx m.nodes i
      m.updateProofs buf buf.length i)
    (fun s => { m with Proofs := proofsMid H leaves m.NumLeaves s 0 })
    d 0 (by
      intro i _ hi
      have hidx : idx m.nodes i = .ok (level H leaves i) := by
        rw [hnodes]; exact idx_tab _ _ _ (by omega)
      simp only [hidx, ok_bind]
      exact updateProofs_eq H leaves m i hn)
  simp only [Nat.zero_add] at key
  simp only [MerkleTree.proofGen, hlen]
  exact key

/-! ## The loops of `New` and `treeBuild` -/

theorem leafFromBlock_eq (H : Bytes → Bytes) (b : Block) :
    leafFromBlock H b = .ok (H b.Data) := rfl

theorem idx_block_getD {l : List Block} {i : Nat} (h : i < l.length) :
    idx l i = .ok (l.getD i ⟨[]⟩) := by
  simp [idx, List.getD_eq_getElem?_getD, List.getElem?_eq_getElem h]

theorem leafGen_eq (H : Bytes → Bytes) (m : MerkleTree) (blocks : List Block)
    (h : m.NumLeaves = blocks.length) :
    m.leafGen H blocks = .ok (blocks.map (fun b => H b.Data)) := by
  unfold MerkleTree.leafGen
  rw [h, replicate_eq_tab]
  have key := forLoop_eq
    (fun i leaves => do
      let block ← idx blocks i
      let leaf ← leafFromBlock H block
      setIdx leaves i leaf)
    (fun i => tab blocks.length
      (fun j => if j < i then H (blocks.getD j ⟨[]⟩).Data else []))
    blocks.length 0 (by
      intro i _ hi
      simp only [idx_block_getD (show i < blocks.length by omega), ok_bind, leafFromBlock_eq]
      rw [setIdx_tab _ _ _ _ (by omega)]
      congr 1
      apply tab_congr
      intro j _
      by_cases hj : j = i
      · subst hj; simp
      · by_cases hlt : j < i
        · simp [hj, hlt, Nat.lt_succ_of_lt hlt]
        · have : ¬ j < i + 1 := by omega
          simp [hj, hlt, this])
  simp only [Nat.zero_add, Nat.not_lt_zero, if_false] at key
  rw [key]
  congr 1
  rw [← tab_map_getD blocks (fun b => H b.Data)]
  apply tab_congr
  intro j hj
  simp [hj]

theorem leafMapLoop_eq (m : MerkleTree) (h : m.Leaves.length = m.NumLeaves)
    (h0 : m.leafMap = fun _ => none) :
    forLoop MerkleTree.leafMapBody m.NumLeaves 0 m =
      .ok { m with leafMap := leafMapUpTo m.Leaves m.NumLeaves } := by
  have key := forLoop_eq MerkleTree.leafMapBody
    (fun i => { m with leafMap := leafMapUpTo m.Leaves i }) m.NumLeaves 0 (by
      intro i _ hi
      simp only [MerkleTree.leafMapBody]
      rw [idx_getD (show i < m.Leaves.length by omega)]
      rfl)
  simp only [Nat.zero_add] at key
  have hm : ({ m with leafMap := leafMapUpTo m.Leaves 0 } : MerkleTree) = m := by
    cases m; simp only [leafMapUpTo]; simp at h0; simp [h0]
  rw [hm] at key
  exact key

/-! ## `treeBuild` and `New` in closed form -/

theorem copySlice_same_length {α : Type} (dst src : List α) (h : dst.length = src.length) :
    copySlice dst src = src := by
  have hmin : Nat.min src.length src.length = src.length := by
    unfold Nat.min; simp
  unfold copySlice
  rw [h, hmin, List.take_length, List.drop_eq_nil_of_le (by omega), List.append_nil]

theorem proofsMid_zero (H : Bytes → Bytes) (leaves : List Bytes) (n s : Nat) :
    proofsMid H leaves n s 0 = tab n (fun i => some (walk H leaves s i)) := by
  unfold proofsMid
  apply tab_congr
  intro i _
  simp

theorem level_top_length (H : Bytes → Bytes) (leaves : List Bytes) (h : 2 ≤ leaves.length) :
    (level H leaves (callTreeDepth leaves.length - 1)).length = 2 := by
  rw [level_length, ulen_top _ h]

theorem treeBuild_eq (H : Bytes → Bytes) (m : MerkleTree)
    (hl : m.Leaves.length = m.NumLeaves) (h0 : m.leafMap = fun _ => none)
    (hd : m.Depth = callTreeDepth m.NumLeaves) (hn : 2 ≤ m.NumLeaves) :
    m.treeBuild H = .ok
      { leafMap := leafMapUpTo m.Leaves m.NumLeaves
        nodes := tab m.Depth (level H m.Leaves)
        Root := combine H ((level H m.Leaves (m.Depth - 1)).getD 0 [])
          ((level H m.Leaves (m.Depth - 1)).getD 1 [])
        Leaves := m.Leaves
        Proofs := tab m.NumLeaves (fun i => some (walk H m.Leaves m.Depth i))
        Depth := m.Depth
        NumLeaves := m.NumLeaves } := by
  have hdpos : 1 ≤ m.Depth := by rw [hd]; exact callTreeDepth_pos _ hn
  have htop : (level H m.Leaves (m.Depth - 1)).length = 2 := by
    rw [hd, ← hl]; exact level_top_length H m.Leaves (by omega)
  have hnodes0 : (tab m.Depth fun j => if j = 0 then pad m.Leaves
      else if j = 0 then m.Leaves else if j = 0 then tab m.NumLeaves (fun _ => ([] : Bytes))
      else ([] : List Bytes)) = nodesAt H m.Leaves m.Depth 0 := by
    unfold nodesAt
    apply tab_congr
    intro t _
    by_cases h : t = 0
    · subst h; simp [level]
    · simp [h]
  unfold MerkleTree.treeBuild
  rw [leafMapLoop_eq m hl h0]
  simp only [ok_bind, replicate_eq_tab]
  rw [setIdx_tab _ _ _ _ (by omega)]
  simp only [ok_bind]
  rw [idx_tab _ _ _ (by omega)]
  simp only [ok_bind, if_true]
  rw [copySlice_same_length _ _ (by rw [tab_length, hl]), setIdx_tab _ _ _ _ (by omega)]
  simp only [ok_bind]
  rw [idx_tab _ _ _ (by omega)]
  simp only [ok_bind, if_true]
  rw [← hl, fixOdd_eq]
  simp only [ok_bind]
  rw [setIdx_tab _ _ _ _ (by omega)]
  simp only [ok_bind, hl, hnodes0]
  have hlen0 : (pad m.Leaves).length = (level H m.Leaves 0).length := rfl
  have hloop := levelLoop_eq H { m with leafMap := leafMapUpTo m.Leaves m.NumLeaves }
    m.Leaves m.Depth hdpos
  simp only [] at hloop
  rw [hlen0, hloop]
  simp only [ok_bind]
  rw [idx_tab _ _ _ (by omega)]
  simp only [ok_bind]
  rw [idx_getD (show 0 < (level H m.Leaves (m.Depth - 1)).length by omega),
    idx_getD (show 1 < (level H m.Leaves (m.Depth - 1)).length by omega)]
  simp only [ok_bind, hashFunc]
  rw [initProofs_eq H m.Leaves]
  simp only [ok_bind]
  have hgen := proofGen_eq H m.Leaves
    { leafMap := leafMapUpTo m.Leaves m.NumLeaves
      nodes := tab m.Depth (level H m.Leaves)
      Root := H (concatSortHash ((level H m.Leaves (m.Depth - 1)).getD 0 [])
        ((level H m.Leaves (m.Depth - 1)).getD 1 []))
      Leaves := m.Leaves
      Proofs := m.Proofs
      Depth := m.Depth
      NumLeaves := m.NumLeaves } m.Depth hl.symm rfl
  simp only [] at hgen
  rw [hgen]
  simp only [proofsMid_zero, combine]

/-- For at least two blocks `New` returns the tree `treeOf` describes. -/
theorem New_eq (H : Bytes → Bytes) (blocks : List Block) (h : 2 ≤ blocks.length) :
    New H blocks = .ok (treeOf H blocks) := by
  unfold New
  rw [if_neg (by omega)]
  simp only []
  rw [leafGen_eq H _ blocks rfl]
  simp only [ok_bind]
  rw [treeBuild_eq H _ (by simp) rfl rfl h]
  simp [treeOf]

theorem New_too_few (H : Bytes → Bytes) (blocks : List Block) (h : blocks.length ≤ 1) :
    New H blocks = .error .tooFewBlocks := by
  unfold New
  rw [if_pos h]

/-! ## The combine is symmetric -/

theorem bytesCompare_asymm (a b : Bytes) (h : bytesCompare a b < 0) : ¬ bytesCompare b a < 0 := by
  induction a generalizing b with
  | nil =>
    cases b with
    | nil => simp [bytesCompare] at h
    | cons y ys => simp [bytesCompare]
  | cons x xs ih =>
    cases b with
    | nil => simp [bytesCompare] at h
    | cons y ys =>
      simp only [bytesCompare] at h ⊢
      by_cases h1 : x < y
      · have : ¬ y < x := by omega
        simp [this, h1]
      · by_cases h2 : y < x
        · simp [h1, h2] at h
        · simp only [h1, h2, if_false] at h ⊢
          exact ih ys h

theorem bytesCompare_eq_of_not_lt (a b : Bytes) (h1 : ¬ bytesCompare a b < 0)
    (h2 : ¬ bytesCompare b a < 0) : a = b := by
  induction a generalizing b with
  | nil =>
    cases b with
    | nil => rfl
    | cons y ys => simp [bytesCompare] at h1
  | cons x xs ih =>
    cases b with
    | nil => simp [bytesCompare] at h2
    | cons y ys =>
      simp only [bytesCompare] at h1 h2
      by_cases hxy : x < y
      · simp [hxy] at h1
      · by_cases hyx : y < x
        · simp [hyx] at h2
        · simp only [hxy, hyx, if_false] at h1 h2
          have hx : x = y := by omega
          rw [hx, ih ys h1 h2]

theorem concatSortHash_comm (a b : Bytes) : concatSortHash a b = concatSortHash b a := by
  unfold concatSortHash
  by_cases h1 : bytesCompare a b < 0
  · rw [if_pos h1, if_neg (bytesCompare_asymm a b h1)]
  · by_cases h2 : bytesCompare b a < 0
    · rw [if_neg h1, if_pos h2]
    · rw [if_neg h1, if_neg h2, bytesCompare_eq_of_not_lt a b h1 h2]

theorem combine_comm (H : Bytes → Bytes) (a b : Bytes) : combine H a b = combine H b a := by
  unfold combine
  rw [concatSortHash_comm]

/-! ## `verify` is the fold over the siblings -/

theorem foldSiblings_append (H : Bytes → Bytes) (start : Bytes) (l : List Bytes) (s : Bytes) :
    foldSiblings H start (l ++ [s]) = combine H (foldSiblings H start l) s := by
  simp [foldSiblings, List.foldl_append]

theorem verify_eq (H : Bytes → Bytes) (b : Block) (p : Proof) (r : Bytes) :
    verify H b (some p) r = .ok (decide (foldSiblings H (H b.Data) p.Siblings = r)) := by
  simp only [verify, leafFromBlock_eq, ok_bind]
  rw [copySlice_same_length _ _ (by simp)]
  have key := forLoop_eq
    (fun i res => do
      let s ← idx p.Siblings i
      hashFunc H (concatSortHash res s))
    (fun i => foldSiblings H (H b.Data) (p.Siblings.take i))
    p.Siblings.length 0 (by
      intro i _ hi
      have hlt : i < p.Siblings.length := by omega
      simp only [idx_getD hlt, ok_bind, hashFunc]
      congr 1
      rw [List.take_succ, List.getD_eq_getElem?_getD, List.getElem?_eq_getElem hlt]
      simp only [Option.toList, foldSiblings_append, Option.getD_some, combine])
  simp only [Nat.zero_add, List.take_zero, List.take_length] at key
  have h0 : foldSiblings H (H b.Data) [] = H b.Data := rfl
  rw [h0] at key
  rw [key]
  rfl

/-! ## The leaf map -/

theorem leafMapUpTo_some (leaves : List Bytes) (i : Nat) (k : Bytes) (j : Nat)
    (h : leafMapUpTo leaves i k = some j) : j < i ∧ leaves.getD j [] = k := by
  induction i with
  | zero => simp [leafMapUpTo] at h
  | succ i ih =>
    simp only [leafMapUpTo] at h
    by_cases hk : k = leaves.getD i []
    · rw [if_pos hk] at h
      have : i = j := by simpa using h
      subst this
      exact ⟨Nat.lt_succ_self _, hk.symm⟩
    · rw [if_neg hk] at h
      exact ⟨Nat.lt_succ_of_lt (ih h).1, (ih h).2⟩

theorem leafMapUpTo_none (leaves : List Bytes) (i : Nat) (k : Bytes) :
    leafMapUpTo leaves i k = none ↔ ∀ j, j < i → leaves.getD j [] ≠ k := by
  induction i with
  | zero => simp [leafMapUpTo]
  | succ i ih =>
    simp only [leafMapUpTo]
    by_cases hk : k = leaves.getD i []
    · rw [if_pos hk]
      constructor
      · intro h; cases h
      · intro h; exact absurd hk.symm (h i (Nat.lt_succ_self _))
    · rw [if_neg hk, ih]
      constructor
      · intro h j hj
        by_cases hji : j = i
        · subst hji; exact fun e => hk e.symm
        · exact h j (by omega)
      · intro h j hj
        exact h j (by omega)

theorem leafMapUpTo_of_mem (leaves : List Bytes) (k : Bytes) (h : k ∈ leaves) :
    ∃ j, leafMapUpTo leaves leaves.length k = some j ∧ j < leaves.length ∧
      leaves.getD j [] = k := by
  cases hm : leafMapUpTo leaves leaves.length k with
  | none =>
    exfalso
    obtain ⟨j, hj, hjk⟩ := List.getElem_of_mem h
    have := (leafMapUpTo_none leaves leaves.length k).mp hm j hj
    apply this
    simp [List.getD_eq_getElem?_getD, List.getElem?_eq_getElem hj, hjk]
  | some j =>
    exact ⟨j, rfl, leafMapUpTo_some leaves _ k j hm⟩

/-- In a leaf list without repeated digests the leaf map sends each leaf to its
own index. -/
theorem leafMapUpTo_nodup (leaves : List Bytes) (hnd : leaves.Nodup) (i : Nat)
    (hi : i < leaves.length) :
    leafMapUpTo leaves leaves.length (leaves.getD i []) = some i := by
  obtain ⟨j, hj, hlt, hjk⟩ := leafMapUpTo_of_mem leaves (leaves.getD i []) (by
    simp [List.getD_eq_getElem?_getD, List.getElem?_eq_getElem hi])
  rw [hj]
  congr 1
  simp only [List.getD_eq_getElem?_getD, List.getElem?_eq_getElem hi,
    List.getElem?_eq_getElem hlt, Option.getD_some] at hjk
  exact (List.Nodup.getElem_inj_iff hnd).mp hjk

/-! ## The index walk of `Proof` -/

theorem anc_lt (n i s : Nat) (h : i < n) : i / 2 ^ s < ulen n s := by
  induction s with
  | zero => simpa [ulen] using h
  | succ s ih =>
    simp only [ulen]
    rw [pow_succ, ← Nat.div_div_eq_div_mul]
    omega

theorem sibling_index_lt (H : Bytes → Bytes) (leaves : List Bytes) (i s : Nat)
    (h : i < leaves.length) :
    (if (i / 2 ^ s) % 2 = 1 then i / 2 ^ s - 1 else i / 2 ^ s + 1) <
      (level H leaves s).length := by
  have h1 := anc_lt leaves.length i s h
  rw [level_length]
  generalize i / 2 ^ s = a at h1 ⊢
  split <;> omega

theorem walkBody_step (H : Bytes → Bytes) (blocks : List Block) (i0 i : Nat)
    (h0 : i0 < blocks.length) (hi : i < callTreeDepth blocks.length) :
    (treeOf H blocks).walkBody i
        (tab (callTreeDepth blocks.length) (fun t =>
            if t < i then sibling H (blocks.map (fun b => H b.Data)) t i0 else []),
          pathUpTo i i0, i0 / 2 ^ i) =
      .ok (tab (callTreeDepth blocks.length) (fun t =>
            if t < i + 1 then sibling H (blocks.map (fun b => H b.Data)) t i0 else []),
          pathUpTo (i + 1) i0, i0 / 2 ^ (i + 1)) := by
  have hlen : i0 < (blocks.map (fun b => H b.Data)).length := by simpa using h0
  have hsib := sibling_index_lt H (blocks.map (fun b => H b.Data)) i0 i hlen
  have hshift : (i0 / 2 ^ i) >>> 1 = i0 / 2 ^ (i + 1) := by
    rw [Nat.shiftRight_eq_div_pow, Nat.pow_one, Nat.div_div_eq_div_mul, pow_succ]
  have htab : ∀ v : Bytes, (tab (callTreeDepth blocks.length) fun j =>
      if j = i then v
      else if j < i then sibling H (blocks.map (fun b => H b.Data)) j i0 else []) =
      tab (callTreeDepth blocks.length) (fun t =>
        if t < i + 1 then (if t = i then v else sibling H (blocks.map (fun b => H b.Data)) t i0)
        else []) := by
    intro v
    apply tab_congr
    intro j _
    by_cases hj : j = i
    · subst hj; simp
    · by_cases hlt : j < i
      · simp [hj, hlt, Nat.lt_succ_of_lt hlt]
      · have : ¬ j < i + 1 := by omega
        simp [hj, hlt, this]
  simp only [MerkleTree.walkBody, treeOf, Nat.and_one_is_mod, hshift]
  by_cases hodd : (i0 / 2 ^ i) % 2 = 1
  · rw [if_pos hodd] at hsib
    rw [if_pos hodd, idx_tab _ _ _ hi]
    simp only [ok_bind]
    rw [idx_getD hsib]
    simp only [ok_bind]
    rw [setIdx_tab _ _ _ _ hi]
    simp only [ok_bind, htab]
    congr 2
    · apply tab_congr
      intro t _
      by_cases ht : t = i
      · subst ht; simp [sibling, hodd]
      · simp [ht]
    · simp [pathUpTo, hodd]
  · rw [if_neg hodd] at hsib
    rw [if_neg hodd, idx_tab _ _ _ hi]
    simp only [ok_bind]
    rw [idx_getD hsib]
    simp only [ok_bind]
    rw [setIdx_tab _ _ _ _ hi]
    simp only [ok_bind, htab]
    congr 2
    · apply tab_congr
      intro t _
      by_cases ht : t = i
      · subst ht; simp [sibling, hodd]
      · simp [ht]
    · simp [pathUpTo, hodd, Nat.one_shiftLeft]

/-- On the tree `New` builds, `Proof` returns the walk from the index the leaf
map gives, and fails exactly when the leaf map has no entry. -/
theorem Proof_eq (H : Bytes → Bytes) (blocks : List Block) (b : Block) :
    (treeOf H blocks).Proof H b =
      match leafMapUpTo (blocks.map (fun b => H b.Data)) blocks.length (H b.Data) with
      | none => .error .blockNotFound
      | some i0 => .ok (walk H (blocks.map (fun b => H b.Data)) (callTreeDepth blocks.length) i0) := by
  simp only [MerkleTree.Proof, leafFromBlock_eq, ok_bind]
  have hmap : (treeOf H blocks).leafMap (H b.Data) =
      leafMapUpTo (blocks.map (fun b => H b.Data)) blocks.length (H b.Data) := rfl
  rw [hmap]
  cases hm : leafMapUpTo (blocks.map (fun b => H b.Data)) blocks.length (H b.Data) with
  | none => rfl
  | some i0 =>
    have hlt : i0 < blocks.length := (leafMapUpTo_some _ _ _ _ hm).1
    have key := forLoop_eq (treeOf H blocks).walkBody
      (fun i => (tab (callTreeDepth blocks.length) (fun t =>
            if t < i then sibling H (blocks.map (fun b => H b.Data)) t i0 else []),
          pathUpTo i i0, i0 / 2 ^ i))
      (callTreeDepth blocks.length) 0
      (fun i _ hi => walkBody_step H blocks i0 i hlt (by omega))
    simp only [Nat.zero_add, Nat.not_lt_zero, if_false, pow_zero, Nat.div_one, pathUpTo] at key
    have hD : (treeOf H blocks).Depth = callTreeDepth blocks.length := rfl
    simp only [hD, replicate_eq_tab, key, ok_bind, walk]
    congr 2
    apply tab_congr
    intro t ht
    simp [ht]

/-! ## Folding a walk gives the root -/

theorem walk_siblings (H : Bytes → Bytes) (leaves : List Bytes) (s i : Nat) :
    (walk H leaves s i).Siblings = tab s (fun t => sibling H leaves t i) := rfl

theorem walk_siblings_length (H : Bytes → Bytes) (leaves : List Bytes) (s i : Nat) :
    (walk H leaves s i).Siblings.length = s := by
  rw [walk_siblings, tab_length]

/-- Combining a node with its sibling gives the parent. -/
theorem combine_sibling (H : Bytes → Bytes) (leaves : List Bytes) (s i : Nat) :
    combine H ((level H leaves s).getD (i / 2 ^ s) []) (sibling H leaves s i) =
      combine H ((level H leaves s).getD (2 * (i / 2 ^ (s + 1))) [])
        ((level H leaves s).getD (2 * (i / 2 ^ (s + 1)) + 1) []) := by
  have hdiv : i / 2 ^ (s + 1) = i / 2 ^ s / 2 := by
    rw [pow_succ, Nat.div_div_eq_div_mul]
  unfold sibling
  rw [hdiv]
  generalize i / 2 ^ s = a
  by_cases hodd : a % 2 = 1
  · rw [if_pos hodd, combine_comm]
    have e1 : 2 * (a / 2) = a - 1 := by omega
    have e2 : a - 1 + 1 = a := by omega
    rw [e1, e2]
  · rw [if_neg hodd]
    have e1 : 2 * (a / 2) = a := by omega
    rw [e1]

theorem fold_walk_level (H : Bytes → Bytes) (leaves : List Bytes) (i s : Nat)
    (h : i < leaves.length) :
    foldSiblings H (leaves.getD i []) (walk H leaves s i).Siblings =
      (level H leaves s).getD (i / 2 ^ s) [] := by
  induction s with
  | zero =>
    simp only [walk_siblings, tab, List.range_zero, List.map_nil, foldSiblings, List.foldl_nil,
      pow_zero, Nat.div_one]
    exact (level_zero_getD H leaves i h).symm
  | succ s ih =>
    rw [walk_siblings, tab_succ, foldSiblings_append, ← walk_siblings, ih,
      combine_sibling H leaves s i,
      level_succ_getD H leaves s _ (anc_lt leaves.length i (s + 1) h)]

/-- The siblings of the walk of leaf `i` fold, from that leaf, to the root. -/
theorem fold_walk_root (H : Bytes → Bytes) (blocks : List Block) (i : Nat)
    (hn : 2 ≤ blocks.length) (h : i < blocks.length) :
    foldSiblings H ((blocks.map (fun b => H b.Data)).getD i [])
        (walk H (blocks.map (fun b => H b.Data)) (callTreeDepth blocks.length) i).Siblings =
      (treeOf H blocks).Root := by
  have hlen : (blocks.map (fun b => H b.Data)).length = blocks.length := by simp
  have hi : i < (blocks.map (fun b => H b.Data)).length := by rw [hlen]; exact h
  have hpos := callTreeDepth_pos blocks.length hn
  obtain ⟨d, hd⟩ : ∃ d, callTreeDepth blocks.length = d + 1 := ⟨callTreeDepth blocks.length - 1, by omega⟩
  have htop : ulen blocks.length d = 2 := by
    have := ulen_top blocks.length hn
    rwa [hd, Nat.add_sub_cancel] at this
  have hanc := anc_lt blocks.length i (d + 1) h
  have hone : ulen blocks.length (d + 1) = 1 := by simp only [ulen, htop]
  have hzero : i / 2 ^ (d + 1) = 0 := by
    rw [hone] at hanc
    exact Nat.lt_one_iff.mp hanc
  simp only [treeOf, hd, Nat.add_sub_cancel]
  rw [walk_siblings, tab_succ, foldSiblings_append, ← walk_siblings,
    fold_walk_level H _ i d hi, combine_sibling H _ d i, hzero]

theorem getD_map_leaf (H : Bytes → Bytes) (blocks : List Block) (i : Nat)
    (h : i < blocks.length) :
    (blocks.map (fun b => H b.Data)).getD i [] = H blocks[i].Data := by
  simp [List.getD_eq_getElem?_getD, List.getElem?_eq_getElem h]

theorem mem_leaves_of_mem (H : Bytes → Bytes) (blocks : List Block) (b : Block)
    (h : b ∈ blocks) : H b.Data ∈ blocks.map (fun b => H b.Data) :=
  List.mem_map.mpr ⟨b, h, rfl⟩

theorem treeOf_proofs_get (H : Bytes → Bytes) (blocks : List Block) (i : Nat)
    (h : i < blocks.length) :
    (treeOf H blocks).Proofs[i]? =
      some (some (walk H (blocks.map (fun b => H b.Data)) (callTreeDepth blocks.length) i)) := by
  simp only [treeOf]
  rw [getElem?_tab, if_pos h]

/-! ## What a successful verification says about membership -/

theorem concatSortHash_cases (a b : Bytes) :
    concatSortHash a b = a ++ b ∨ concatSortHash a b = b ++ a := by
  unfold concatSortHash
  split
  · left; rfl
  · right; rfl

/-- Two sorted concatenations of digests of one length agree only if the pairs
agree. -/
theorem concatSortHash_eq_imp (L : Nat) (r s a c : Bytes) (hr : r.length = L)
    (ha : a.length = L) (hc : c.length = L) (h : concatSortHash r s = concatSortHash a c) :
    r = a ∨ r = c := by
  have hs : s.length = L := by
    have hl := congrArg List.length h
    rcases concatSortHash_cases r s with e1 | e1 <;>
      rcases concatSortHash_cases a c with e2 | e2 <;>
      rw [e1, e2] at hl <;> simp only [List.length_append] at hl <;> omega
  rcases concatSortHash_cases r s with e1 | e1 <;>
    rcases concatSortHash_cases a c with e2 | e2 <;> rw [e1, e2] at h
  · exact Or.inl (List.append_inj h (by omega)).1
  · exact Or.inr (List.append_inj h (by omega)).1
  · exact Or.inr (List.append_inj h (by omega)).2
  · exact Or.inl (List.append_inj h (by omega)).2

/-- Every stored node is a stored node below the unpadded length of its level. -/
theorem level_getD_unpadded (H : Bytes → Bytes) (leaves : List Bytes) (t j : Nat)
    (hn : 1 ≤ leaves.length) (hj : j < (level H leaves t).length) :
    ∃ j', j' < ulen leaves.length t ∧ (level H leaves t).getD j [] = (level H leaves t).getD j' [] := by
  have hpos : 1 ≤ ulen leaves.length t := by
    have := ulen_le_pow leaves.length t
    by_contra hc
    have h0 : ulen leaves.length t = 0 := by omega
    rw [h0] at this
    omega
  by_cases hlt : j < ulen leaves.length t
  · exact ⟨j, hlt, rfl⟩
  · rw [level_length] at hj
    have hodd : ulen leaves.length t % 2 = 1 := by omega
    have hje : j = ulen leaves.length t := by omega
    refine ⟨ulen leaves.length t - 1, by omega, ?_⟩
    subst hje
    cases t with
    | zero =>
      simp only [level, ulen] at hodd ⊢
      rw [pad_getD_last _ hodd, pad_getD_lt _ _ (by omega)]
    | succ t =>
      have hraw : (pairUp H (level H leaves t)).length = ulen leaves.length (t + 1) := by
        rw [pairUp_length, level_half]
      simp only [level]
      rw [← hraw] at hodd ⊢
      rw [pad_getD_last _ hodd, pad_getD_lt _ _ (by omega)]

theorem level_getD_length (H : Bytes → Bytes) (L : Nat) (hL : ∀ x, (H x).length = L)
    (blocks : List Block) (t j : Nat) (hn : 1 ≤ blocks.length)
    (hj : j < (level H (blocks.map (fun b => H b.Data)) t).length) :
    ((level H (blocks.map (fun b => H b.Data)) t).getD j []).length = L := by
  have hlen : (blocks.map (fun b => H b.Data)).length = blocks.length := by simp
  obtain ⟨j', hj', he⟩ := level_getD_unpadded H _ t j (by rw [hlen]; exact hn) hj
  rw [he]
  cases t with
  | zero =>
    simp only [ulen, hlen] at hj'
    rw [level_zero_getD _ _ _ (by rw [hlen]; exact hj'), getD_map_leaf H blocks j' hj']
    exact hL _
  | succ t =>
    rw [level_succ_getD _ _ _ _ hj']
    exact hL _

theorem foldSiblings_length (H : Bytes → Bytes) (L : Nat) (hL : ∀ x, (H x).length = L)
    (x : Bytes) (l : List Bytes) : (foldSiblings H (H x) l).length = L := by
  induction l generalizing x with
  | nil => exact hL x
  | cons s l ih => exact ih (concatSortHash (H x) s)

theorem foldSiblings_take_succ (H : Bytes → Bytes) (start : Bytes) (l : List Bytes) (t : Nat)
    (ht : t < l.length) :
    foldSiblings H start (l.take (t + 1)) =
      combine H (foldSiblings H start (l.take t)) (l.getD t []) := by
  rw [List.take_succ, List.getD_eq_getElem?_getD, List.getElem?_eq_getElem ht]
  simp only [Option.toList, foldSiblings_append, Option.getD_some]

theorem treeOf_nodes_getD (H : Bytes → Bytes) (blocks : List Block) (s : Nat)
    (hs : s < callTreeDepth blocks.length) :
    (treeOf H blocks).nodes.getD s [] = level H (blocks.map (fun b => H b.Data)) s := by
  simp only [treeOf, List.getD_eq_getElem?_getD, getElem?_tab, if_pos hs, Option.getD_some]

/-- One step down: if the running digest after `t + 1` siblings is the combine
of two stored digests `a` and `c`, then the running digest after `t` siblings is
`a` or `c`, unless the two strings hashed are different (a collision). -/
theorem descend_step (H : Bytes → Bytes) (L : Nat) (hL : ∀ x, (H x).length = L)
    (blocks : List Block) (b : Block) (p : Proof) (t : Nat) (a c : Bytes)
    (ht : t < p.Siblings.length) (ha : a.length = L) (hc : c.length = L)
    (hv : buildInput blocks (treeOf H blocks) (concatSortHash a c))
    (heq : foldSiblings H (H b.Data) (p.Siblings.take (t + 1)) = combine H a c) :
    (foldSiblings H (H b.Data) (p.Siblings.take t) = a ∨
      foldSiblings H (H b.Data) (p.Siblings.take t) = c) ∨
    ∃ u v, u ≠ v ∧ H u = H v ∧ verifyInput H b p u ∧ buildInput blocks (treeOf H blocks) v := by
  rw [foldSiblings_take_succ H _ _ t ht] at heq
  by_cases hcs : concatSortHash (foldSiblings H (H b.Data) (p.Siblings.take t))
      (p.Siblings.getD t []) = concatSortHash a c
  · left
    exact concatSortHash_eq_imp L _ _ a c (foldSiblings_length H L hL _ _) ha hc hcs
  · right
    exact ⟨_, _, hcs, heq, Or.inr ⟨t, ht, rfl⟩, hv⟩

theorem descend (H : Bytes → Bytes) (L : Nat) (hL : ∀ x, (H x).length = L)
    (blocks : List Block) (b : Block) (p : Proof) (hn : 2 ≤ blocks.length)
    (hlen : p.Siblings.length = callTreeDepth blocks.length) (t : Nat)
    (ht : t < callTreeDepth blocks.length) (j : Nat)
    (hj : j < (level H (blocks.map (fun b => H b.Data)) t).length)
    (heq : foldSiblings H (H b.Data) (p.Siblings.take t) =
      (level H (blocks.map (fun b => H b.Data)) t).getD j []) :
    (∃ x, x ∈ blocks ∧ x.Data = b.Data) ∨
    ∃ u v, u ≠ v ∧ H u = H v ∧ verifyInput H b p u ∧ buildInput blocks (treeOf H blocks) v := by
  have hmaplen : (blocks.map (fun b => H b.Data)).length = blocks.length := by simp
  induction t generalizing j with
  | zero =>
    obtain ⟨j', hj', he⟩ := level_getD_unpadded H _ 0 j (by rw [hmaplen]; omega) hj
    simp only [ulen, hmaplen] at hj'
    rw [he, level_zero_getD _ _ _ (by rw [hmaplen]; exact hj'), getD_map_leaf H blocks j' hj'] at heq
    simp only [List.take_zero, foldSiblings, List.foldl_nil] at heq
    by_cases hd : b.Data = blocks[j'].Data
    · exact Or.inl ⟨blocks[j'], List.getElem_mem _, hd.symm⟩
    · exact Or.inr ⟨_, _, hd, heq, Or.inl rfl, Or.inl ⟨blocks[j'], List.getElem_mem _, rfl⟩⟩
  | succ t ih =>
    obtain ⟨j', hj', he⟩ := level_getD_unpadded H _ (t + 1) j (by rw [hmaplen]; omega) hj
    rw [he, level_succ_getD _ _ _ _ hj'] at heq
    have hhalf := level_half H (blocks.map (fun b => H b.Data)) t
    have hev := level_length_even H (blocks.map (fun b => H b.Data)) t
    have h1 : 2 * j' + 1 < (level H (blocks.map (fun b => H b.Data)) t).length := by omega
    have h0 : 2 * j' < (level H (blocks.map (fun b => H b.Data)) t).length := by omega
    have htd : t < callTreeDepth blocks.length := by omega
    have hv : buildInput blocks (treeOf H blocks)
        (concatSortHash ((level H (blocks.map (fun b => H b.Data)) t).getD (2 * j') [])
          ((level H (blocks.map (fun b => H b.Data)) t).getD (2 * j' + 1) [])) := by
      right
      refine ⟨t, j', ?_, ?_, ?_⟩
      · simp only [treeOf, tab_length]; exact htd
      · rw [treeOf_nodes_getD H blocks t htd]; exact h1
      · rw [treeOf_nodes_getD H blocks t htd]
    rcases descend_step H L hL blocks b p t _ _ (by omega)
      (level_getD_length H L hL blocks t _ (by omega) h0)
      (level_getD_length H L hL blocks t _ (by omega) h1) hv heq with (h | h) | h
    · exact ih htd _ h0 h
    · exact ih htd _ h1 h
    · exact Or.inr h

/-- Membership up to collision: a proof with `Depth` siblings that verifies
against the root of the tree built from `blocks` is a proof for a block whose
data is in `blocks`, unless a string hashed by `verify` collides with a
different string hashed while the tree was built. -/
theorem verify_sound (H : Bytes → Bytes) (L : Nat) (hL : ∀ x, (H x).length = L)
    (blocks : List Block) (b : Block) (p : Proof) (hn : 2 ≤ blocks.length)
    (hlen : p.Siblings.length = callTreeDepth blocks.length)
    (hver : (treeOf H blocks).Verify H b (some p) = .ok true) :
    (∃ x, x ∈ blocks ∧ x.Data = b.Data) ∨
    ∃ u v, u ≠ v ∧ H u = H v ∧ verifyInput H b p u ∧ buildInput blocks (treeOf H blocks) v := by
  have hmaplen : (blocks.map (fun b => H b.Data)).length = blocks.length := by simp
  have hpos := callTreeDepth_pos blocks.length hn
  obtain ⟨d, hd⟩ : ∃ d, callTreeDepth blocks.length = d + 1 :=
    ⟨callTreeDepth blocks.length - 1, by omega⟩
  have htop : (level H (blocks.map (fun b => H b.Data)) d).length = 2 := by
    have := level_top_length H (blocks.map (fun b => H b.Data)) (by rw [hmaplen]; exact hn)
    rwa [hmaplen, hd, Nat.add_sub_cancel] at this
  rw [MerkleTree.Verify, verify_eq] at hver
  simp only [Except.ok.injEq, decide_eq_true_eq] at hver
  have hroot : (treeOf H blocks).Root =
      combine H ((level H (blocks.map (fun b => H b.Data)) d).getD 0 [])
        ((level H (blocks.map (fun b => H b.Data)) d).getD 1 []) := by
    simp only [treeOf, hd, Nat.add_sub_cancel]
  have htake : p.Siblings.take (d + 1) = p.Siblings := by
    rw [← hd, ← hlen, List.take_length]
  rw [hroot, ← htake] at hver
  have hdlt : d < callTreeDepth blocks.length := by omega
  have hv : buildInput blocks (treeOf H blocks)
      (concatSortHash ((level H (blocks.map (fun b => H b.Data)) d).getD 0 [])
        ((level H (blocks.map (fun b => H b.Data)) d).getD 1 [])) := by
    right
    refine ⟨d, 0, ?_, ?_, ?_⟩
    · simp only [treeOf, tab_length]; exact hdlt
    · rw [treeOf_nodes_getD H blocks d hdlt, htop]; omega
    · rw [treeOf_nodes_getD H blocks d hdlt]
  rcases descend_step H L hL blocks b p d _ _ (by omega)
    (level_getD_length H L hL blocks d 0 (by omega) (by omega))
    (level_getD_length H L hL blocks d 1 (by omega) (by omega)) hv hver with (h | h) | h
  · exact descend H L hL blocks b p hn hlen d hdlt 0 (by omega) h
  · exact descend H L hL blocks b p hn hlen d hdlt 1 (by omega) h
  · exact Or.inr h

/-- Whatever the hash, the tree built from the two blocks `[0]`, `[0]` accepts,
with a proof that has no siblings, the block whose data is the sorted
concatenation of the two leaf digests; that block is not one of the inputs. -/
theorem empty_proof_accepted (H : Bytes → Bytes) :
    (treeOf H [Block.mk [0], Block.mk [0]]).Verify H
        (Block.mk (concatSortHash (H [0]) (H [0]))) (some { Siblings := [], Path := 0 }) =
      .ok true ∧
    ∀ x, x ∈ [Block.mk [0], Block.mk [0]] → x.Data ≠ concatSortHash (H [0]) (H [0]) := by
  constructor
  · rw [MerkleTree.Verify, verify_eq]
    have hd : callTreeDepth [Block.mk [0], Block.mk [0]].length = 1 := by decide
    simp only [treeOf, hd]
    simp [foldSiblings, level, pad, combine]
  · intro x hx heq
    have hlen := congrArg List.length heq
    have hx' : x.Data = [0] := by
      simp only [List.mem_cons, List.mem_singleton, List.not_mem_nil, or_false, or_self] at hx
      rw [hx]
    rw [hx'] at hlen
    rcases concatSortHash_cases (H [0]) (H [0]) with e | e <;>
      rw [e] at hlen <;> simp only [List.length_append, List.length_singleton] at hlen <;> omega

/-! ## Shape and contents of the stored levels -/

/-- The unpadded length of level `s` is `ceil(n / 2^s)`. -/
theorem ulen_eq_ceil (n s : Nat) : ulen n s = (n + 2 ^ s - 1) / 2 ^ s := by
  induction s with
  | zero => simp [ulen]
  | succ s ih =>
    have hpos : 0 < 2 ^ s := Nat.two_pow_pos s
    have h1 : (n + 2 ^ s - 1) / 2 ^ s + 1 = (n + 2 ^ s - 1 + 2 ^ s) / 2 ^ s :=
      (Nat.add_div_right _ hpos).symm
    have h2 : n + 2 ^ s - 1 + 2 ^ s = n + 2 ^ (s + 1) - 1 := by
      rw [pow_succ]; omega
    simp only [ulen]
    rw [ih, h1, h2, Nat.div_div_eq_div_mul, ← pow_succ]

theorem treeOf_nodes_idx (H : Bytes → Bytes) (blocks : List Block) (s : Nat)
    (hs : s < callTreeDepth blocks.length) :
    idx (treeOf H blocks).nodes s = .ok (level H (blocks.map (fun b => H b.Data)) s) := by
  simp only [treeOf]
  exact idx_tab _ _ _ hs

theorem treeOf_nodes_length (H : Bytes → Bytes) (blocks : List Block) :
    (treeOf H blocks).nodes.length = callTreeDepth blocks.length := by
  simp only [treeOf, tab_length]

theorem pad_eq (l : List Bytes) :
    pad l = if l.length % 2 = 1 then l ++ [l.getD (l.length - 1) []] else l := by
  unfold pad
  by_cases h : l.length % 2 = 0
  · rw [if_pos h, if_neg (by omega)]
  · rw [if_neg h, if_pos (by omega)]

/-! ## `bytes.Compare` and the lexicographic order -/

/-- The model of `bytes.Compare` is negative exactly when the first argument is
smaller in the lexicographic order of lists. -/
theorem bytesCompare_lt_iff (a b : Bytes) : bytesCompare a b < 0 ↔ a < b := by
  induction a generalizing b with
  | nil =>
    cases b with
    | nil => simp [bytesCompare]
    | cons y ys =>
      simp only [bytesCompare]
      exact ⟨fun _ => List.Lex.nil, fun _ => by decide⟩
  | cons x xs ih =>
    cases b with
    | nil =>
      simp only [bytesCompare]
      exact ⟨fun h => absurd h (by decide), fun h => absurd h (List.Lex.not_nil_right _ _)⟩
    | cons y ys =>
      simp only [bytesCompare]
      by_cases h1 : x < y
      · rw [if_pos h1]
        exact ⟨fun _ => List.Lex.rel h1, fun _ => by decide⟩
      · rw [if_neg h1]
        by_cases h2 : y < x
        · rw [if_pos h2]
          refine ⟨fun h => absurd h (by decide), fun h => ?_⟩
          have h3 : (y :: ys) < (x :: xs) := List.Lex.rel h2
          exact absurd h (lt_asymm h3)
        · rw [if_neg h2]
          have hxy : x = y := by omega
          subst hxy
          rw [ih ys]
          exact (List.Lex.cons_iff (r := fun (p q : Nat) => p < q)).symm

theorem concatSortHash_min_max (a b : Bytes) :
    concatSortHash a b = Min.min a b ++ Max.max a b := by
  unfold concatSortHash
  by_cases h : a < b
  · rw [if_pos ((bytesCompare_lt_iff a b).mpr h), min_eq_left (le_of_lt h),
      max_eq_right (le_of_lt h)]
  · rw [if_neg (fun h' => h ((bytesCompare_lt_iff a b).mp h')), min_eq_right (not_lt.mp h),
      max_eq_left (not_lt.mp h)]

/-! ## The path value -/

/-- Without `uint32` wrap-around (at most 32 levels) the path value over levels
`0 .. d-1` is the complement of the low `d` bits of the leaf index. -/
theorem pathUpTo_eq (d i : Nat) (hd : d ≤ 32) : pathUpTo d i = 2 ^ d - 1 - i % 2 ^ d := by
  induction d with
  | zero => simp [pathUpTo]
  | succ s ih =>
    have ih' := ih (by omega)
    have hP : 2 ^ s ≤ 2 ^ 31 := Nat.pow_le_pow_right (by decide) (by omega)
    have hr : i % 2 ^ s < 2 ^ s := Nat.mod_lt _ (Nat.two_pow_pos s)
    have hsplit : i % 2 ^ (s + 1) = i % 2 ^ s + 2 ^ s * (i / 2 ^ s % 2) := Nat.mod_pow_succ
    have hpow : 2 ^ (s + 1) = 2 * 2 ^ s := by rw [pow_succ]; omega
    simp only [pathUpTo]
    rw [ih', hsplit, hpow]
    have hbit : i / 2 ^ s % 2 < 2 := Nat.mod_lt _ (by decide)
    generalize i / 2 ^ s % 2 = bit at hbit ⊢
    generalize i % 2 ^ s = r at hr ⊢
    generalize 2 ^ s = P at hP hr ⊢
    by_cases hb : bit = 1
    · rw [if_pos hb, hb]; omega
    · rw [if_neg hb]
      by_cases hb0 : bit = 0
      · subst hb0
        have h31 : (2 : Nat) ^ 31 = 2147483648 := by decide
        have h32 : (2 : Nat) ^ 32 = 4294967296 := by decide
        rw [h31] at hP
        rw [h32, Nat.mod_eq_of_lt (by omega), Nat.mod_eq_of_lt (by omega)]
        omega
      · exfalso
        exact hb0 (by omega)

/-! ## Exchanging the two leaves of a pair -/

theorem getD_of_le (l : List Bytes) (t : Nat) (h : l.length ≤ t) : l.getD t [] = [] := by
  simp [List.getD_eq_getElem?_getD, List.getElem?_eq_none h]

theorem pad_getD_beyond (l : List Bytes) (t : Nat) (h : l.length < t) :
    (pad l).getD t [] = [] := by
  apply getD_of_le
  rw [pad_length]
  omega

theorem pad_getD_even (l : List Bytes) (h : l.length % 2 = 0) :
    (pad l).getD l.length [] = [] := by
  apply getD_of_le
  rw [pad_length]
  omega

/-- Padding keeps the exchange: the copied last element is not one of the two. -/
theorem swappedAt_pad (k : Nat) (l l' : List Bytes) (h : swappedAt k l l') :
    swappedAt k (pad l) (pad l') := by
  obtain ⟨hlen, hk, h0, h1, hrest⟩ := h
  refine ⟨by rw [pad_length, pad_length, hlen], by rw [pad_length]; omega, ?_, ?_, ?_⟩
  · rw [pad_getD_lt _ _ (by omega), pad_getD_lt _ _ (by omega), h0]
  · rw [pad_getD_lt _ _ (by omega), pad_getD_lt _ _ (by omega), h1]
  · intro t ht0 ht1
    by_cases hlt : t < l.length
    · rw [pad_getD_lt _ _ (by omega), pad_getD_lt _ _ hlt, hrest t ht0 ht1]
    · by_cases hgt : l.length < t
      · rw [pad_getD_beyond _ _ (by omega), pad_getD_beyond _ _ hgt]
      · have hte : t = l.length := by omega
        subst hte
        by_cases hodd : l.length % 2 = 1
        · have e1 := pad_getD_last l hodd
          have e2 := pad_getD_last l' (by omega)
          rw [hlen] at e2
          rw [e1, e2]
          exact hrest _ (by omega) (by omega)
        · have e1 := pad_getD_even l (by omega)
          have e2 := pad_getD_even l' (by omega)
          rw [hlen] at e2
          rw [e1, e2]

/-- The parents of two levels that differ by the exchange of one pair agree. -/
theorem pairUp_swappedAt (H : Bytes → Bytes) (k : Nat) (l l' : List Bytes)
    (h : swappedAt k l l') : pairUp H l' = pairUp H l := by
  obtain ⟨hlen, hk, h0, h1, hrest⟩ := h
  unfold pairUp
  rw [hlen]
  apply tab_congr
  intro j _
  by_cases hj : j = k
  · subst hj
    rw [h0, h1, combine_comm]
  · rw [hrest (2 * j) (by omega) (by omega), hrest (2 * j + 1) (by omega) (by omega)]

theorem level_succ_swappedAt (H : Bytes → Bytes) (k : Nat) (l l' : List Bytes)
    (h : swappedAt k l l') (s : Nat) : level H l' (s + 1) = level H l (s + 1) := by
  induction s with
  | zero =>
    simp only [level]
    rw [pairUp_swappedAt H k _ _ (swappedAt_pad k l l' h)]
  | succ s ih =>
    have e : ∀ x : List Bytes, level H x (s + 1 + 1) = pad (pairUp H (level H x (s + 1))) :=
      fun _ => rfl
    rw [e l', e l, ih]

theorem pairUp_level_swappedAt (H : Bytes → Bytes) (k : Nat) (l l' : List Bytes)
    (h : swappedAt k l l') (s : Nat) : pairUp H (level H l' s) = pairUp H (level H l s) := by
  cases s with
  | zero => exact pairUp_swappedAt H k _ _ (swappedAt_pad k l l' h)
  | succ s => rw [level_succ_swappedAt H k l l' h s]

/-- The leaves of a block list with the blocks at `2 * k` and `2 * k + 1`
exchanged are the leaves with those two entries exchanged. -/
theorem swappedAt_leaves (H : Bytes → Bytes) (blocks : List Block) (k : Nat)
    (hk : 2 * k + 1 < blocks.length) :
    swappedAt k (blocks.map (fun b => H b.Data))
      (((blocks.set (2 * k) blocks[2 * k + 1]).set (2 * k + 1) blocks[2 * k]).map
        (fun b => H b.Data)) := by
  have hk0 : 2 * k < blocks.length := by omega
  refine ⟨by simp, by simpa using hk, ?_, ?_, ?_⟩
  · simp [List.getD_eq_getElem?_getD, List.getElem?_set, hk, hk0, List.getElem?_eq_getElem hk]
  · simp [List.getD_eq_getElem?_getD, List.getElem?_set, hk, hk0, List.getElem?_eq_getElem hk0]
  · intro t ht0 ht1
    have n0 : ¬ 2 * k = t := fun e => ht0 e.symm
    have n1 : ¬ 2 * k + 1 = t := fun e => ht1 e.symm
    simp [List.getD_eq_getElem?_getD, List.getElem?_set, n0, n1]

theorem treeOf_swappedAt (H : Bytes → Bytes) (k : Nat) (blocks blocks' : List Block)
    (hn : 2 ≤ blocks.length) (hl : blocks'.length = blocks.length)
    (hsw : swappedAt k (blocks.map (fun b => H b.Data)) (blocks'.map (fun b => H b.Data))) :
    (treeOf H blocks').Root = (treeOf H blocks).Root ∧
    (treeOf H blocks').Depth = (treeOf H blocks).Depth ∧
    (treeOf H blocks').nodes.drop 1 = (treeOf H blocks).nodes.drop 1 := by
  have hlen : (blocks.map (fun b => H b.Data)).length = blocks.length := by simp
  have hlen' : (blocks'.map (fun b => H b.Data)).length = blocks.length := by simp [hl]
  have htop := level_top_length H (blocks.map (fun b => H b.Data)) (by rw [hlen]; exact hn)
  have htop' := level_top_length H (blocks'.map (fun b => H b.Data)) (by rw [hlen']; exact hn)
  rw [hlen] at htop
  rw [hlen'] at htop'
  refine ⟨?_, ?_, ?_⟩
  · simp only [treeOf, hl]
    rw [← pairUp_getD H _ 0 (by rw [htop']; decide), ← pairUp_getD H _ 0 (by rw [htop]; decide),
      pairUp_level_swappedAt H k _ _ hsw]
  · simp only [treeOf, hl]
  · simp only [treeOf, hl]
    apply List.ext_getElem?
    intro t
    rw [List.getElem?_drop, List.getElem?_drop, getElem?_tab, getElem?_tab]
    have e : 1 + t = t + 1 := by omega
    rw [e, level_succ_swappedAt H k _ _ hsw]

/-! ## `callTreeDepth` on a 64-bit `int` -/

theorem wrapInt64_of_lt (x : Int) (h0 : 0 ≤ x) (h1 : x < 2 ^ 63) : wrapInt64 x = x := by
  unfold wrapInt64
  rw [Int.emod_eq_of_lt (by omega) (by omega)]
  omega

theorem halve_int64 (n : Nat) (h : n < 2 ^ 63 - 1) :
    Int.tdiv (wrapInt64 ((n : Int) + 1)) 2 = (((n + 1) / 2 : Nat) : Int) := by
  rw [wrapInt64_of_lt _ (by omega) (by omega)]
  exact (Int.ofNat_tdiv (n + 1) 2).symm

/-- Below the largest `int` the loop on `int` does what the loop on naturals
does. -/
theorem callTreeDepthInt64Loop_eq (fuel : Nat) :
    ∀ (n d : Nat), n < 2 ^ 63 - 1 → callTreeDepth n ≤ fuel → d + callTreeDepth n < 2 ^ 32 →
      callTreeDepthInt64Loop fuel (n : Int) d = d + callTreeDepth n := by
  induction fuel with
  | zero =>
    intro n d _ hf _
    have : callTreeDepth n = 0 := by omega
    simp [callTreeDepthInt64Loop, this]
  | succ f ih =>
    intro n d hn hf hd
    simp only [callTreeDepthInt64Loop]
    by_cases h1 : 1 < n
    · have hgt : (n : Int) > 1 := by omega
      have hun := callTreeDepth_unfold n
      rw [if_pos h1] at hun
      rw [if_pos hgt, halve_int64 n hn, Nat.mod_eq_of_lt (by omega),
        ih ((n + 1) / 2) (d + 1) (by omega) (by omega) (by omega), hun]
      omega
    · have hgt : ¬ (n : Int) > 1 := by omega
      rw [if_neg hgt, callTreeDepth_le_one n (by omega)]
      rfl

theorem callTreeDepth_le_63 (n : Nat) (h : n < 2 ^ 63 - 1) : callTreeDepth n ≤ 63 :=
  callTreeDepth_le_of_le_pow n 63 (by omega)

/-- On every value below the largest 64-bit `int`, so on every slice length,
`callTreeDepth` on `int` is `callTreeDepth` on naturals. -/
theorem callTreeDepthInt64_eq (n : Nat) (h : n < 2 ^ 63 - 1) :
    callTreeDepthInt64 (n : Int) = callTreeDepth n := by
  have h63 := callTreeDepth_le_63 n h
  unfold callTreeDepthInt64
  rw [callTreeDepthInt64Loop_eq 64 n 0 h (by omega) (by omega)]
  omega

/-- On every 64-bit `int` the loop has ended after 64 rounds: more fuel does not
change the result. -/
theorem callTreeDepthInt64Loop_fuel (b : Int) (hlo : -2 ^ 63 ≤ b) (hhi : b < 2 ^ 63)
    (fuel : Nat) (hf : 64 ≤ fuel) :
    callTreeDepthInt64Loop fuel b 0 = callTreeDepthInt64 b := by
  obtain ⟨f, rfl⟩ : ∃ f, fuel = f + 2 := ⟨fuel - 2, by omega⟩
  by_cases h1 : b > 1
  · by_cases hmax : b = 2 ^ 63 - 1
    · subst hmax
      have hw : Int.tdiv (wrapInt64 (2 ^ 63 - 1 + 1)) 2 = -2 ^ 62 := by decide
      have hR : callTreeDepthInt64 (2 ^ 63 - 1) = 1 := by decide
      rw [hR]
      simp only [callTreeDepthInt64Loop, if_pos h1, hw]
      rw [if_neg (by decide)]
      rfl
    · obtain ⟨n, rfl⟩ : ∃ n : Nat, b = (n : Int) := ⟨b.toNat, by omega⟩
      have hn : n < 2 ^ 63 - 1 := by omega
      have h63 := callTreeDepth_le_63 n hn
      rw [callTreeDepthInt64_eq n hn,
        callTreeDepthInt64Loop_eq (f + 2) n 0 hn (by omega) (by omega)]
      omega
  · have hR : callTreeDepthInt64 b = 0 := by
      simp only [callTreeDepthInt64, callTreeDepthInt64Loop, if_neg h1]
    rw [hR]
    simp only [callTreeDepthInt64Loop, if_neg h1]

/-! ## `verify` over shared memory -/

theorem writeAt_nil (mem : Memory) (pos : Nat) : writeAt mem pos [] = mem := by
  simp [writeAt]

/-- Onto a sibling without spare capacity nothing is written, and the result is
`concatSortHash` of the values. -/
theorem concatSortHashMem_no_spare (mem : Memory) (res : Bytes) (s : Slice)
    (h : s.cap = s.len) :
    concatSortHashMem mem res s = (concatSortHash res (s.read mem), mem) := by
  unfold concatSortHashMem concatSortHash appendTo
  by_cases hc : bytesCompare res (s.read mem) < 0
  · rw [if_pos hc, if_pos hc]
  · rw [if_neg hc, if_neg hc]
    by_cases hfit : s.len + res.length ≤ s.cap
    · have hnil : res = [] := List.eq_nil_of_length_eq_zero (by omega)
      rw [if_pos hfit, hnil, writeAt_nil]
    · rw [if_neg hfit]

/-- The value `concatSortHash` returns does not depend on the layout. -/
theorem concatSortHashMem_fst (mem : Memory) (res : Bytes) (s : Slice) :
    (concatSortHashMem mem res s).1 = concatSortHash res (s.read mem) := by
  unfold concatSortHashMem concatSortHash appendTo
  by_cases hc : bytesCompare res (s.read mem) < 0
  · rw [if_pos hc, if_pos hc]
  · rw [if_neg hc, if_neg hc]
    split <;> rfl

theorem verifyMemBody_no_spare (H : Bytes → Bytes) (mem : Memory) (siblings : List Slice)
    (hcap : ∀ s, s ∈ siblings → s.cap = s.len) (start : Bytes) (i : Nat)
    (hi : i < siblings.length) :
    verifyMemBody H siblings i
        (foldSiblings H start ((siblings.take i).map (fun s => s.read mem)), mem) =
      .ok (foldSiblings H start ((siblings.take (i + 1)).map (fun s => s.read mem)), mem) := by
  have hidx : idx siblings i = .ok siblings[i] :=
    idx_of_getElem? (List.getElem?_eq_getElem hi)
  simp only [verifyMemBody, hidx, ok_bind,
    concatSortHashMem_no_spare mem _ _ (hcap _ (List.getElem_mem hi)), hashFunc]
  rw [List.take_succ, List.getElem?_eq_getElem hi]
  simp only [Option.toList, List.map_append, List.map_cons, List.map_nil, foldSiblings_append,
    combine]

set_option maxHeartbeats 800000 in
/-- When no sibling has spare capacity, `verify` over memory writes nothing and
returns what `verify` returns on the values of the slices. -/
theorem verifyMem_eq_verify (H : Bytes → Bytes) (mem : Memory) (data : Slice) (p : ProofRef)
    (root : Slice) (hcap : ∀ s, s ∈ p.Siblings → s.cap = s.len) :
    verifyMem H mem data (some p) root =
      (verify H { Data := data.read mem }
        (some { Siblings := p.Siblings.map (fun s => s.read mem), Path := p.Path })
        (root.read mem)).map (fun v => (v, mem)) := by
  rw [verify_eq]
  simp only [verifyMem, leafFromBlock_eq, ok_bind]
  rw [copySlice_same_length _ _ (by simp)]
  have hstep : ∀ i, 0 ≤ i → i < 0 + p.Siblings.length →
      verifyMemBody H p.Siblings i
          (foldSiblings H (H (data.read mem)) ((p.Siblings.take i).map (fun s => s.read mem)),
            mem) =
        .ok (foldSiblings H (H (data.read mem))
          ((p.Siblings.take (i + 1)).map (fun s => s.read mem)), mem) := by
    intro i _ hi
    have hlt : i < p.Siblings.length := by omega
    exact verifyMemBody_no_spare H mem p.Siblings hcap (H (data.read mem)) i hlt
  have key := forLoop_eq (verifyMemBody H p.Siblings)
    (fun i => (foldSiblings H (H (data.read mem))
      ((p.Siblings.take i).map (fun s => s.read mem)), mem))
    p.Siblings.length 0 hstep
  simp only [Nat.zero_add, List.take_zero, List.take_length, List.map_nil] at key
  have h0 : foldSiblings H (H (data.read mem)) [] = H (data.read mem) := rfl
  rw [h0] at key
  rw [key]
  simp only [ok_bind, Except.map]

/-- Over memory, too, `verify` reports no error for a non-nil proof. -/
theorem verifyMem_ok (H : Bytes → Bytes) (mem : Memory) (data : Slice) (p : ProofRef)
    (root : Slice) : ∃ v mem', verifyMem H mem data (some p) root = .ok (v, mem') := by
  simp only [verifyMem, leafFromBlock_eq, ok_bind]
  obtain ⟨st, hst, _⟩ := forLoop_inv (verifyMemBody H p.Siblings) (fun _ _ => True)
    p.Siblings.length 0
    (copySlice (List.replicate (H (data.read mem)).length 0) (H (data.read mem)), mem) trivial
    (fun i t _ hi _ => by
      have hidx : idx p.Siblings i = .ok p.Siblings[i] :=
        idx_of_getElem? (List.getElem?_eq_getElem (by omega))
      exact ⟨(H (concatSortHashMem t.2 t.1 p.Siblings[i]).1,
        (concatSortHashMem t.2 t.1 p.Siblings[i]).2),
        by simp only [verifyMemBody, hidx, ok_bind, hashFunc], trivial⟩)
  rw [hst]
  exact ⟨_, _, rfl⟩

/-- Over memory, too, `verify` never reads the path value. -/
theorem verifyMem_path (H : Bytes → Bytes) (mem : Memory) (data : Slice)
    (siblings : List Slice) (path1 path2 : Nat) (root : Slice) :
    verifyMem H mem data (some { Siblings := siblings, Path := path1 }) root =
      verifyMem H mem data (some { Siblings := siblings, Path := path2 }) root := rfl

/-- On naturals `callTreeDepth n`, for `n ≥ 1`, is the number of ceiling-halvings
that bring `n` to 1, the least `d` with `n ≤ 2^d`, and `Nat.clog 2 n`. -/
theorem callTreeDepth_spec (n : Nat) (h : 1 ≤ n) :
    ((fun x => (x + 1) / 2)^[callTreeDepth n] n = 1 ∧
      ∀ k, k < callTreeDepth n → (fun x => (x + 1) / 2)^[k] n ≠ 1) ∧
    (n ≤ 2 ^ callTreeDepth n ∧ ∀ d, n ≤ 2 ^ d → callTreeDepth n ≤ d) ∧
    callTreeDepth n = Nat.clog 2 n ∧
    (∀ k, callTreeDepth (2 ^ k) = k) ∧
    callTreeDepth 2 = 1 ∧ callTreeDepth 3 = 2 ∧ callTreeDepth 4 = 2 ∧ callTreeDepth 5 = 3 := by
  refine ⟨⟨?_, ?_⟩, ⟨le_pow_callTreeDepth n h, callTreeDepth_le_of_le_pow n⟩, ?_, ?_,
    by decide, by decide, by decide, by decide⟩
  · rw [← ulen_eq_iterate]; exact ulen_callTreeDepth n h
  · intro k hk
    rw [← ulen_eq_iterate]
    have hn : 2 ≤ n := by
      by_contra h1
      rw [callTreeDepth_le_one n (by omega)] at hk
      omega
    have := ulen_ge_two n hn k hk
    omega
  · apply Nat.le_antisymm
    · exact callTreeDepth_le_of_le_pow n _ (Nat.le_pow_clog (by omega) n)
    · exact (Nat.le_pow_iff_clog_le (by omega)).mp (le_pow_callTreeDepth n h)
  · intro k
    apply Nat.le_antisymm
    · exact callTreeDepth_le_of_le_pow _ _ (Nat.le_refl _)
    · exact (Nat.pow_le_pow_iff_right (by omega)).mp
        (le_pow_callTreeDepth (2 ^ k) (Nat.one_le_two_pow))

/-! ## The claims -/

/-- C1: for a block list of length at least 2 and any block `b` of the list,
whatever the hash function, `New` returns a tree `m`, `m.Proof b` returns a
proof `p`, and `m.Verify b p` returns `true` without error. -/
theorem C1_on_demand_proof_verifies (H : Bytes → Bytes) (blocks : List Block) (b : Block)
    (hn : 2 ≤ blocks.length) (hb : b ∈ blocks) :
    ∃ m p, New H blocks = .ok m ∧ m.Proof H b = .ok p ∧ m.Verify H b (some p) = .ok true := by
  obtain ⟨j, hj, hlt, hjk⟩ := leafMapUpTo_of_mem _ _ (mem_leaves_of_mem H blocks b hb)
  rw [List.length_map] at hj hlt
  refine ⟨treeOf H blocks, walk H (blocks.map (fun b => H b.Data)) (callTreeDepth blocks.length) j,
    New_eq H blocks hn, ?_, ?_⟩
  · rw [Proof_eq, hj]
  · rw [MerkleTree.Verify, verify_eq, ← hjk, fold_walk_root H blocks j hn hlt]
    simp

/-- C1 on three blocks, the first and the last equal, with the identity as hash. -/
theorem C1_on_demand_proof_verifies_witness :
    2 ≤ [Block.mk [1], Block.mk [2], Block.mk [1]].length ∧
    Block.mk [1] ∈ [Block.mk [1], Block.mk [2], Block.mk [1]] ∧
    ∃ m p, New (fun x => x) [Block.mk [1], Block.mk [2], Block.mk [1]] = .ok m ∧
      m.Proof (fun x => x) (Block.mk [1]) = .ok p ∧
      m.Verify (fun x => x) (Block.mk [1]) (some p) = .ok true :=
  ⟨by decide, by decide,
    C1_on_demand_proof_verifies (fun x => x) [Block.mk [1], Block.mk [2], Block.mk [1]]
      (Block.mk [1]) (by decide) (by decide)⟩

/-- C2: for a block list of length at least 2 and an index `i` below it, the
precomputed `m.Proofs[i]` is a non-nil proof `p`, `m.Verify blocks[i] p` returns
`true` without error, and folding `p.Siblings` over leaf `i` with the
sorted-concatenation combine gives `m.Root`. -/
theorem C2_precomputed_proof_verifies (H : Bytes → Bytes) (blocks : List Block) (i : Nat)
    (hn : 2 ≤ blocks.length) (hi : i < blocks.length) :
    ∃ m p, New H blocks = .ok m ∧ idx m.Proofs i = .ok (some p) ∧
      m.Verify H blocks[i] (some p) = .ok true ∧
      p.Siblings.foldl (fun d s => H (concatSortHash d s)) (H blocks[i].Data) = m.Root := by
  have hfold := fold_walk_root H blocks i hn hi
  rw [getD_map_leaf H blocks i hi] at hfold
  refine ⟨treeOf H blocks, _, New_eq H blocks hn,
    idx_of_getElem? (treeOf_proofs_get H blocks i hi), ?_, hfold⟩
  rw [MerkleTree.Verify, verify_eq]
  simp only [decide_eq_true_eq, Except.ok.injEq]
  exact hfold

/-- C2 on five blocks (an odd count), at the last index. -/
theorem C2_precomputed_proof_verifies_witness :
    2 ≤ [Block.mk [0], Block.mk [1], Block.mk [2], Block.mk [3], Block.mk [4]].length ∧
    ∃ m p, New (fun x => x)
        [Block.mk [0], Block.mk [1], Block.mk [2], Block.mk [3], Block.mk [4]] = .ok m ∧
      idx m.Proofs 4 = .ok (some p) ∧
      m.Verify (fun x => x) (Block.mk [4]) (some p) = .ok true ∧
      p.Siblings.foldl (fun d s => concatSortHash d s) [4] = m.Root :=
  ⟨by decide,
    C2_precomputed_proof_verifies (fun x => x)
      [Block.mk [0], Block.mk [1], Block.mk [2], Block.mk [3], Block.mk [4]] 4
      (by decide) (by decide)⟩

/-- C3 as stated fails for every hash function: no `H` makes "if `m.Verify b p`
returns `true` then the data of `b` is the data of an input block" hold for
all trees built by `New`.  The input that shows it is the block list
`[0]`, `[0]`, the block `concatSortHash (H [0]) (H [0])` and the proof without
siblings. -/
theorem C3_verify_accepts_non_member :
    ¬ ∃ H : Bytes → Bytes, ∀ (blocks : List Block) (b : Block) (p : Proof) (m : MerkleTree),
      New H blocks = .ok m → m.Verify H b (some p) = .ok true →
        ∃ x, x ∈ blocks ∧ x.Data = b.Data := by
  rintro ⟨H, hall⟩
  obtain ⟨hv, hne⟩ := empty_proof_accepted H
  obtain ⟨x, hx, hxd⟩ := hall [Block.mk [0], Block.mk [0]]
    (Block.mk (concatSortHash (H [0]) (H [0]))) { Siblings := [], Path := 0 }
    (treeOf H [Block.mk [0], Block.mk [0]]) (New_eq H _ (by decide)) hv
  exact hne x hx hxd

/-- C3, amended: for a hash whose digests all have one length `L` and a tree
`m` built by `New` from a block list, if a proof `p` with exactly `m.Depth`
siblings makes `m.Verify b p` return `true`, then the data of `b` is the data
of an input block, or there is a collision: a string `u` hashed by `verify`
and a different string `v` hashed while the tree was built with
`H u = H v`. -/
theorem C3_membership_up_to_collision (H : Bytes → Bytes) (L : Nat) (blocks : List Block)
    (b : Block) (p : Proof) (m : MerkleTree) (hL : ∀ x, (H x).length = L)
    (hnew : New H blocks = .ok m) (hlen : p.Siblings.length = m.Depth)
    (hver : m.Verify H b (some p) = .ok true) :
    (∃ x, x ∈ blocks ∧ x.Data = b.Data) ∨
    ∃ u v, u ≠ v ∧ H u = H v ∧ verifyInput H b p u ∧ buildInput blocks m v := by
  have hn : 2 ≤ blocks.length := by
    by_contra hc
    rw [New_too_few H blocks (by omega)] at hnew
    cases hnew
  rw [New_eq H blocks hn] at hnew
  injection hnew with hm
  subst hm
  exact verify_sound H L hL blocks b p hn hlen hver

/-- C3, amended, on two blocks with a constant one-byte hash: the block `[3]`
is accepted with the one-sibling proof `[[0]]`, and is not an input. -/
theorem C3_membership_up_to_collision_witness :
    (∀ x : Bytes, ((fun _ => [0]) x : Bytes).length = 1) ∧
    New (fun _ => [0]) [Block.mk [1], Block.mk [2]] =
      .ok (treeOf (fun _ => [0]) [Block.mk [1], Block.mk [2]]) ∧
    ({ Siblings := [[0]], Path := 0 } : Proof).Siblings.length =
      (treeOf (fun _ => [0]) [Block.mk [1], Block.mk [2]]).Depth ∧
    (treeOf (fun _ => [0]) [Block.mk [1], Block.mk [2]]).Verify (fun _ => [0]) (Block.mk [3])
      (some { Siblings := [[0]], Path := 0 }) = .ok true ∧
    ((∃ x, x ∈ [Block.mk [1], Block.mk [2]] ∧ x.Data = (Block.mk [3]).Data) ∨
      ∃ u v, u ≠ v ∧ (fun _ => [0]) u = ((fun _ => [0]) v : Bytes) ∧
        verifyInput (fun _ => [0]) (Block.mk [3]) { Siblings := [[0]], Path := 0 } u ∧
        buildInput [Block.mk [1], Block.mk [2]]
          (treeOf (fun _ => [0]) [Block.mk [1], Block.mk [2]]) v) :=
  ⟨fun _ => rfl, New_eq _ _ (by decide), by decide, by rfl,
    C3_membership_up_to_collision (fun _ => [0]) 1 [Block.mk [1], Block.mk [2]] (Block.mk [3])
      { Siblings := [[0]], Path := 0 } (treeOf (fun _ => [0]) [Block.mk [1], Block.mk [2]])
      (fun _ => rfl) (New_eq _ _ (by decide)) (by decide) (by rfl)⟩

/-- C4: for a block list of length at least 2, the index walk of `m.Proof b`
returns, for every block `b` of the list, the same proof (siblings and path) as
the precomputed `m.Proofs[idx]`, `idx` being the index the leaf map gives the
leaf digest of `b`; and when the leaf digests are pairwise distinct,
`m.Proof blocks[i]` is `m.Proofs[i]` for every `i`. -/
theorem C4_walk_agrees_with_batch (H : Bytes → Bytes) (blocks : List Block)
    (hn : 2 ≤ blocks.length) :
    ∃ m, New H blocks = .ok m ∧
      (∀ b, b ∈ blocks → ∃ i p q, m.leafMap (H b.Data) = some i ∧ m.Proof H b = .ok p ∧
        idx m.Proofs i = .ok (some q) ∧ p.Siblings = q.Siblings ∧ p.Path = q.Path) ∧
      ((blocks.map (fun b => H b.Data)).Nodup →
        ∀ i (hi : i < blocks.length), ∃ p, m.Proof H blocks[i] = .ok p ∧
          idx m.Proofs i = .ok (some p)) := by
  refine ⟨treeOf H blocks, New_eq H blocks hn, ?_, ?_⟩
  · intro b hb
    obtain ⟨j, hj, hlt, _⟩ := leafMapUpTo_of_mem _ _ (mem_leaves_of_mem H blocks b hb)
    rw [List.length_map] at hj hlt
    refine ⟨j, _, _, hj, ?_, idx_of_getElem? (treeOf_proofs_get H blocks j hlt), rfl, rfl⟩
    rw [Proof_eq, hj]
  · intro hnd i hi
    have hlen : i < (blocks.map (fun b => H b.Data)).length := by simpa using hi
    have hmap := leafMapUpTo_nodup _ hnd i hlen
    rw [getD_map_leaf H blocks i hi, List.length_map] at hmap
    refine ⟨_, ?_, idx_of_getElem? (treeOf_proofs_get H blocks i hi)⟩
    rw [Proof_eq, hmap]

/-- C4 on three blocks with the identity as hash. -/
theorem C4_walk_agrees_with_batch_witness :
    2 ≤ [Block.mk [1], Block.mk [2], Block.mk [3]].length ∧
    ∃ m, New (fun x => x) [Block.mk [1], Block.mk [2], Block.mk [3]] = .ok m ∧
      (∀ b, b ∈ [Block.mk [1], Block.mk [2], Block.mk [3]] →
        ∃ i p q, m.leafMap ((fun x => x) b.Data) = some i ∧ m.Proof (fun x => x) b = .ok p ∧
          idx m.Proofs i = .ok (some q) ∧ p.Siblings = q.Siblings ∧ p.Path = q.Path) ∧
      (([Block.mk [1], Block.mk [2], Block.mk [3]].map (fun b => (fun x => x) b.Data)).Nodup →
        ∀ i (hi : i < [Block.mk [1], Block.mk [2], Block.mk [3]].length),
          ∃ p, m.Proof (fun x => x) [Block.mk [1], Block.mk [2], Block.mk [3]][i] = .ok p ∧
            idx m.Proofs i = .ok (some p)) :=
  ⟨by decide,
    C4_walk_agrees_with_batch (fun x => x) [Block.mk [1], Block.mk [2], Block.mk [3]]
      (by decide)⟩

/-- C5: `New` returns the "blocks must be greater than 1" error, and no tree,
when there are 0 or 1 blocks; for 2 or more blocks it returns a tree and no
error, so that no index in leaf generation, level building or proof generation
is out of range. -/
theorem C5_New_fails_iff_too_few (H : Bytes → Bytes) (blocks : List Block) :
    New H blocks =
      if blocks.length ≤ 1 then .error .tooFewBlocks else .ok (treeOf H blocks) := by
  by_cases h : blocks.length ≤ 1
  · rw [if_pos h, New_too_few H blocks h]
  · rw [if_neg h, New_eq H blocks (by omega)]

/-- C6: on the tree built from at least 2 blocks, `m.Proof b` returns the
"block not found" error exactly when the leaf digest of `b` differs from the
leaf digest of every input block, and otherwise returns a proof; with an
injective hash it fails for every block that is not in the input. -/
theorem C6_Proof_fails_iff_unknown (H : Bytes → Bytes) (blocks : List Block) (b : Block)
    (hn : 2 ≤ blocks.length) :
    ∃ m, New H blocks = .ok m ∧
      (m.Proof H b = .error .blockNotFound ↔ ∀ x, x ∈ blocks → H x.Data ≠ H b.Data) ∧
      ((∃ x, x ∈ blocks ∧ H x.Data = H b.Data) → ∃ p, m.Proof H b = .ok p) ∧
      (Function.Injective H → b ∉ blocks → m.Proof H b = .error .blockNotFound) := by
  have hiff : (treeOf H blocks).Proof H b = .error .blockNotFound ↔
      ∀ x, x ∈ blocks → H x.Data ≠ H b.Data := by
    rw [Proof_eq]
    cases hm : leafMapUpTo (blocks.map (fun b => H b.Data)) blocks.length (H b.Data) with
    | none =>
      simp only [true_iff]
      intro x hx heq
      obtain ⟨j, hj, _⟩ := leafMapUpTo_of_mem _ _ (mem_leaves_of_mem H blocks x hx)
      rw [List.length_map, heq, hm] at hj
      cases hj
    | some j =>
      simp only [false_iff, reduceCtorEq]
      intro hall
      obtain ⟨hlt, hjk⟩ := leafMapUpTo_some _ _ _ _ hm
      rw [getD_map_leaf H blocks j hlt] at hjk
      exact hall blocks[j] (List.getElem_mem _) hjk
  refine ⟨treeOf H blocks, New_eq H blocks hn, hiff, ?_, ?_⟩
  · rintro ⟨x, hx, heq⟩
    obtain ⟨j, hj, _⟩ := leafMapUpTo_of_mem _ _ (mem_leaves_of_mem H blocks x hx)
    rw [List.length_map, heq] at hj
    exact ⟨_, by rw [Proof_eq, hj]⟩
  · intro hinj hb
    apply hiff.mpr
    intro x hx heq
    apply hb
    have : x = b := by
      cases x; cases b
      simp only [Block.mk.injEq]
      exact hinj heq
    rw [← this]; exact hx

/-- C6 on two blocks and a third, unknown one, with the identity as hash. -/
theorem C6_Proof_fails_iff_unknown_witness :
    2 ≤ [Block.mk [1], Block.mk [2]].length ∧
    ∃ m, New (fun x => x) [Block.mk [1], Block.mk [2]] = .ok m ∧
      (m.Proof (fun x => x) (Block.mk [3]) = .error .blockNotFound ↔
        ∀ x, x ∈ [Block.mk [1], Block.mk [2]] → (fun x => x) x.Data ≠ (fun x => x) [3]) ∧
      ((∃ x, x ∈ [Block.mk [1], Block.mk [2]] ∧ (fun x => x) x.Data = (fun x => x) [3]) →
        ∃ p, m.Proof (fun x => x) (Block.mk [3]) = .ok p) ∧
      (Function.Injective (fun x : Bytes => x) → Block.mk [3] ∉ [Block.mk [1], Block.mk [2]] →
        m.Proof (fun x => x) (Block.mk [3]) = .error .blockNotFound) :=
  ⟨by decide,
    C6_Proof_fails_iff_unknown (fun x => x) [Block.mk [1], Block.mk [2]] (Block.mk [3])
      (by decide)⟩

/-- C7 as stated fails at the largest 64-bit `int`, `n = 2^63 - 1`: there
`blockLen + 1` wraps to a negative number, the loop ends after one round and
`callTreeDepth` returns 1, while one halving does not bring `n` to 1,
`2^1 < n`, and `ceil(log2 n) = 63`. -/
theorem C7_callTreeDepth_wraps_at_max_int :
    callTreeDepthInt64 (2 ^ 63 - 1) = 1 ∧
    Nat.clog 2 (2 ^ 63 - 1) = 63 ∧
    (fun x => (x + 1) / 2)^[callTreeDepthInt64 (2 ^ 63 - 1)] (2 ^ 63 - 1) ≠ 1 ∧
    ¬ (2 ^ 63 - 1 ≤ 2 ^ callTreeDepthInt64 (2 ^ 63 - 1)) := by
  have h1 : callTreeDepthInt64 (2 ^ 63 - 1) = 1 := by decide
  refine ⟨h1, ?_, ?_, ?_⟩
  · apply Nat.le_antisymm
    · exact (Nat.le_pow_iff_clog_le (by decide)).mp (by decide)
    · by_contra hc
      have h62 : Nat.clog 2 (2 ^ 63 - 1) ≤ 62 := by omega
      exact absurd ((Nat.le_pow_iff_clog_le (by decide)).mpr h62) (by decide)
  · rw [h1]; decide
  · rw [h1]; decide

/-- C7, amended: for a leaf count `1 ≤ n < 2^63 - 1` (every 64-bit `int` below
the largest, hence every slice length), `callTreeDepth n` on `int` is the
number of ceiling-halvings `x ↦ (x+1)/2` that bring `n` to 1 (it is 1 after that
many steps and not before), it is the least `d` with `n ≤ 2^d`, that is
`ceil(log2 n)`; `callTreeDepth (2^k) = k` for `k ≤ 62`, with the values 1, 2,
2, 3 at 2, 3, 4, 5; and it is the depth on naturals that `New` stores. -/
theorem C7_callTreeDepth_formula (n : Nat) (h : 1 ≤ n) (hmax : n < 2 ^ 63 - 1) :
    ((fun x => (x + 1) / 2)^[callTreeDepthInt64 (n : Int)] n = 1 ∧
      ∀ k, k < callTreeDepthInt64 (n : Int) → (fun x => (x + 1) / 2)^[k] n ≠ 1) ∧
    (n ≤ 2 ^ callTreeDepthInt64 (n : Int) ∧
      ∀ d, n ≤ 2 ^ d → callTreeDepthInt64 (n : Int) ≤ d) ∧
    callTreeDepthInt64 (n : Int) = Nat.clog 2 n ∧
    (∀ k, k ≤ 62 → callTreeDepthInt64 ((2 ^ k : Nat) : Int) = k) ∧
    callTreeDepthInt64 2 = 1 ∧ callTreeDepthInt64 3 = 2 ∧ callTreeDepthInt64 4 = 2 ∧
    callTreeDepthInt64 5 = 3 ∧
    callTreeDepthInt64 (n : Int) = callTreeDepth n := by
  obtain ⟨h1, h2, h3, h4, _⟩ := callTreeDepth_spec n h
  rw [callTreeDepthInt64_eq n hmax]
  refine ⟨h1, h2, h3, ?_, by decide, by decide, by decide, by decide, rfl⟩
  intro k hk
  have hpow : 2 ^ k < 2 ^ 63 - 1 := by
    have : 2 ^ k ≤ 2 ^ 62 := Nat.pow_le_pow_right (by decide) hk
    omega
  rw [callTreeDepthInt64_eq _ hpow]
  exact h4 k

/-- C7, amended, at the leaf count 5. -/
theorem C7_callTreeDepth_formula_witness :
    1 ≤ 5 ∧ 5 < 2 ^ 63 - 1 ∧
    (((fun x => (x + 1) / 2)^[callTreeDepthInt64 ((5 : Nat) : Int)] 5 = 1 ∧
      ∀ k, k < callTreeDepthInt64 ((5 : Nat) : Int) → (fun x => (x + 1) / 2)^[k] 5 ≠ 1) ∧
    (5 ≤ 2 ^ callTreeDepthInt64 ((5 : Nat) : Int) ∧
      ∀ d, 5 ≤ 2 ^ d → callTreeDepthInt64 ((5 : Nat) : Int) ≤ d) ∧
    callTreeDepthInt64 ((5 : Nat) : Int) = Nat.clog 2 5 ∧
    (∀ k, k ≤ 62 → callTreeDepthInt64 ((2 ^ k : Nat) : Int) = k) ∧
    callTreeDepthInt64 2 = 1 ∧ callTreeDepthInt64 3 = 2 ∧ callTreeDepthInt64 4 = 2 ∧
    callTreeDepthInt64 5 = 3 ∧
    callTreeDepthInt64 ((5 : Nat) : Int) = callTreeDepth 5) :=
  ⟨by decide, by decide, C7_callTreeDepth_formula 5 (by decide) (by decide)⟩

/-- C8: on the tree built from `n ≥ 2` blocks, `m.Proofs` has `n` entries,
every `m.Proofs[i]` is a non-nil proof with exactly `m.Depth` siblings, and
`m.Proof b` returns, for every block `b` of the list, a proof with exactly
`m.Depth` siblings (as does every proof `m.Proof` returns at all). -/
theorem C8_proof_length (H : Bytes → Bytes) (blocks : List Block) (hn : 2 ≤ blocks.length) :
    ∃ m, New H blocks = .ok m ∧ m.Proofs.length = blocks.length ∧
      (∀ i, i < blocks.length →
        ∃ p, idx m.Proofs i = .ok (some p) ∧ p.Siblings.length = m.Depth) ∧
      (∀ b, b ∈ blocks → ∃ p, m.Proof H b = .ok p ∧ p.Siblings.length = m.Depth) ∧
      (∀ b p, m.Proof H b = .ok p → p.Siblings.length = m.Depth) := by
  have hall : ∀ b p, (treeOf H blocks).Proof H b = .ok p →
      p.Siblings.length = (treeOf H blocks).Depth := by
    intro b p hp
    rw [Proof_eq] at hp
    cases hm : leafMapUpTo (blocks.map (fun b => H b.Data)) blocks.length (H b.Data) with
    | none => rw [hm] at hp; cases hp
    | some j =>
      rw [hm] at hp
      injection hp with hp
      rw [← hp, walk_siblings_length]
      rfl
  refine ⟨treeOf H blocks, New_eq H blocks hn, by simp [treeOf, tab_length], ?_, ?_, hall⟩
  · intro i hi
    exact ⟨_, idx_of_getElem? (treeOf_proofs_get H blocks i hi), walk_siblings_length _ _ _ _⟩
  · intro b hb
    obtain ⟨j, hj, _⟩ := leafMapUpTo_of_mem _ _ (mem_leaves_of_mem H blocks b hb)
    rw [List.length_map] at hj
    have hp : (treeOf H blocks).Proof H b = .ok
        (walk H (blocks.map (fun b => H b.Data)) (callTreeDepth blocks.length) j) := by
      rw [Proof_eq, hj]
    exact ⟨_, hp, hall b _ hp⟩

/-- C8 on three blocks with the identity as hash. -/
theorem C8_proof_length_witness :
    2 ≤ [Block.mk [1], Block.mk [2], Block.mk [3]].length ∧
    ∃ m, New (fun x => x) [Block.mk [1], Block.mk [2], Block.mk [3]] = .ok m ∧
      m.Proofs.length = [Block.mk [1], Block.mk [2], Block.mk [3]].length ∧
      (∀ i, i < [Block.mk [1], Block.mk [2], Block.mk [3]].length →
        ∃ p, idx m.Proofs i = .ok (some p) ∧ p.Siblings.length = m.Depth) ∧
      (∀ b, b ∈ [Block.mk [1], Block.mk [2], Block.mk [3]] →
        ∃ p, m.Proof (fun x => x) b = .ok p ∧ p.Siblings.length = m.Depth) ∧
      (∀ b p, m.Proof (fun x => x) b = .ok p → p.Siblings.length = m.Depth) :=
  ⟨by decide,
    C8_proof_length (fun x => x) [Block.mk [1], Block.mk [2], Block.mk [3]] (by decide)⟩

/-- C9: the tree built from `n ≥ 2` blocks has `NumLeaves = n`,
`Depth = callTreeDepth n` and `Leaves` of length `n` with
`Leaves[i] = hash(blocks[i].Data)` in input order (no padding); the four blocks
"0", "1", "2", "3" give `NumLeaves = 4` and `Depth = 2`. -/
theorem C9_header_and_leaves (H : Bytes → Bytes) (blocks : List Block)
    (hn : 2 ≤ blocks.length) :
    (∃ m, New H blocks = .ok m ∧ m.NumLeaves = blocks.length ∧
      m.Depth = callTreeDepth blocks.length ∧ m.Leaves.length = blocks.length ∧
      (∀ i (hi : i < blocks.length), idx m.Leaves i = .ok (H blocks[i].Data)) ∧
      m.Leaves = blocks.map (fun b => H b.Data)) ∧
    (∃ m, New H [Block.mk [48], Block.mk [49], Block.mk [50], Block.mk [51]] = .ok m ∧
      m.NumLeaves = 4 ∧ m.Depth = 2) := by
  refine ⟨⟨treeOf H blocks, New_eq H blocks hn, rfl, rfl, by simp [treeOf], ?_, rfl⟩,
    ⟨_, New_eq H _ (by decide), rfl, (by decide : callTreeDepth 4 = 2)⟩⟩
  intro i hi
  apply idx_of_getElem?
  simp [treeOf, List.getElem?_eq_getElem hi]

/-- C9 on three blocks with the identity as hash. -/
theorem C9_header_and_leaves_witness :
    2 ≤ [Block.mk [1], Block.mk [2], Block.mk [3]].length ∧
    ((∃ m, New (fun x => x) [Block.mk [1], Block.mk [2], Block.mk [3]] = .ok m ∧
      m.NumLeaves = [Block.mk [1], Block.mk [2], Block.mk [3]].length ∧
      m.Depth = callTreeDepth [Block.mk [1], Block.mk [2], Block.mk [3]].length ∧
      m.Leaves.length = [Block.mk [1], Block.mk [2], Block.mk [3]].length ∧
      (∀ i (hi : i < [Block.mk [1], Block.mk [2], Block.mk [3]].length),
        idx m.Leaves i = .ok ((fun x => x) [Block.mk [1], Block.mk [2], Block.mk [3]][i].Data)) ∧
      m.Leaves = [Block.mk [1], Block.mk [2], Block.mk [3]].map (fun b => (fun x => x) b.Data)) ∧
    (∃ m, New (fun x => x) [Block.mk [48], Block.mk [49], Block.mk [50], Block.mk [51]] = .ok m ∧
      m.NumLeaves = 4 ∧ m.Depth = 2)) :=
  ⟨by decide,
    C9_header_and_leaves (fun x => x) [Block.mk [1], Block.mk [2], Block.mk [3]] (by decide)⟩

/-- C10 fails on siblings that share a backing array.  Memory holds the block
data `[5]`, the array `buf = [1, 9]` and the root `[1, 5, 9]`; the siblings are
`buf[0:1]` (capacity 2) and `buf[1:2]`, and the hash is the identity.  The
sibling values fold from `hash(b.Data)` to the root, so by the claim `verify`
returns `true`; it returns `false`, since `append(buf[0:1], res...)` in
`concatSortHash` has written the running digest over `buf[1]` before the second
sibling is read. -/
theorem C10_verify_differs_on_shared_siblings :
    (([({ ptr := 1, len := 1, cap := 2 } : Slice), { ptr := 2, len := 1, cap := 1 }].map
        (fun s => s.read [5, 1, 9, 1, 5, 9])).foldl
      (fun d s => (fun x => x) (concatSortHash d s))
      ((fun x => x) (({ ptr := 0, len := 1, cap := 1 } : Slice).read [5, 1, 9, 1, 5, 9])) =
      ({ ptr := 3, len := 3, cap := 3 } : Slice).read [5, 1, 9, 1, 5, 9]) ∧
    verifyMem (fun x => x) [5, 1, 9, 1, 5, 9] { ptr := 0, len := 1, cap := 1 }
        (some { Siblings := [{ ptr := 1, len := 1, cap := 2 }, { ptr := 2, len := 1, cap := 1 }],
                Path := 0 })
        { ptr := 3, len := 3, cap := 3 } =
      .ok (false, [5, 1, 5, 1, 5, 9]) :=
  ⟨by decide, by rfl⟩

/-- C11: `verify` returns an error exactly when the proof is nil (the error is
"proof is nil"); for every non-nil proof, whatever its siblings and however
many of them there are, it returns a boolean and no error.  The same holds of
`verify` on slices in shared memory. -/
theorem C11_verify_errors_iff_nil (H : Bytes → Bytes) (b : Block) (proof : Option Proof)
    (r : Bytes) :
    ((∃ e, verify H b proof r = .error e) ↔ proof = none) ∧
    verify H b none r = .error .nilProof ∧
    (∀ p : Proof, ∃ v, verify H b (some p) r = .ok v) ∧
    (∀ (mem : Memory) (data root : Slice),
      verifyMem H mem data none root = .error .nilProof ∧
      ∀ p : ProofRef, ∃ v mem', verifyMem H mem data (some p) root = .ok (v, mem')) := by
  refine ⟨?_, rfl, fun p => ⟨_, verify_eq H b p r⟩, fun mem data root =>
    ⟨rfl, fun p => verifyMem_ok H mem data p root⟩⟩
  cases proof with
  | none => simp [verify]
  | some p => simp [verify_eq]

/-- C13: for exactly two blocks `New` returns a tree with `Depth = 1`, one
stored level, namely the two leaves, and
`Root = hash(concatSortHash(leaf0, leaf1))` with `leaf_i = hash(blocks[i].Data)`. -/
theorem C13_two_block_tree (H : Bytes → Bytes) (b0 b1 : Block) :
    ∃ m, New H [b0, b1] = .ok m ∧ m.Depth = 1 ∧ m.nodes.length = 1 ∧
      m.nodes = [[H b0.Data, H b1.Data]] ∧
      m.Root = H (concatSortHash (H b0.Data) (H b1.Data)) := by
  have hd : callTreeDepth [b0, b1].length = 1 := (by decide : callTreeDepth 2 = 1)
  refine ⟨treeOf H [b0, b1], New_eq H _ (by simp), hd, ?_, ?_, ?_⟩
  · simp only [treeOf, hd, tab_length]
  · simp only [treeOf, hd]
    simp [tab, level, pad, List.range_succ]
  · simp only [treeOf, hd]
    simp [level, pad, combine]

/-- C14: for exactly three blocks with leaves `l0`, `l1`, `l2`, `New` returns a
tree with `Depth = 2`, stored level 0 equal to `[l0, l1, l2, l2]`, stored level 1
equal to `[C(l0, l1), C(l2, l2)]` and `Root = C(C(l0, l1), C(l2, l2))`, where
`C(a, b) = hash(concatSortHash(a, b))`. -/
theorem C14_three_block_tree (H : Bytes → Bytes) (b0 b1 b2 : Block) :
    ∃ m, New H [b0, b1, b2] = .ok m ∧ m.Depth = 2 ∧
      idx m.nodes 0 = .ok [H b0.Data, H b1.Data, H b2.Data, H b2.Data] ∧
      m.nodes = [[H b0.Data, H b1.Data, H b2.Data, H b2.Data],
        [H (concatSortHash (H b0.Data) (H b1.Data)),
          H (concatSortHash (H b2.Data) (H b2.Data))]] ∧
      m.Root = H (concatSortHash (H (concatSortHash (H b0.Data) (H b1.Data)))
        (H (concatSortHash (H b2.Data) (H b2.Data)))) := by
  have hd : callTreeDepth [b0, b1, b2].length = 2 := (by decide : callTreeDepth 3 = 2)
  have hnodes : (treeOf H [b0, b1, b2]).nodes =
      [[H b0.Data, H b1.Data, H b2.Data, H b2.Data],
        [H (concatSortHash (H b0.Data) (H b1.Data)),
          H (concatSortHash (H b2.Data) (H b2.Data))]] := by
    simp only [treeOf, hd]
    simp [tab, level, pad, pairUp, combine, List.range_succ]
  refine ⟨treeOf H [b0, b1, b2], New_eq H _ (by simp), hd, ?_, hnodes, ?_⟩
  · rw [hnodes]; rfl
  · simp only [treeOf, hd]
    simp [tab, level, pad, pairUp, combine, List.range_succ]

/-- C16: the tree built from `n ≥ 2` blocks stores exactly
`d = callTreeDepth n` levels; stored level `k < d` has length `ceil(n / 2^k)`
rounded up to the next even number, so an even length; the unpadded length
`ceil(n / 2^(k+1))` of level `k + 1` is half the length of stored level `k`;
and the last stored level `d - 1` has exactly two elements. -/
theorem C16_level_shape (H : Bytes → Bytes) (blocks : List Block) (hn : 2 ≤ blocks.length) :
    ∃ m, New H blocks = .ok m ∧ m.nodes.length = callTreeDepth blocks.length ∧
      m.nodes.length = m.Depth ∧
      (∀ k, k < callTreeDepth blocks.length → ∃ lvl, idx m.nodes k = .ok lvl ∧
        lvl.length = (blocks.length + 2 ^ k - 1) / 2 ^ k +
          ((blocks.length + 2 ^ k - 1) / 2 ^ k) % 2 ∧
        lvl.length % 2 = 0) ∧
      (∀ k, k + 1 < callTreeDepth blocks.length → ∃ lo, idx m.nodes k = .ok lo ∧
        (blocks.length + 2 ^ (k + 1) - 1) / 2 ^ (k + 1) = lo.length / 2) ∧
      (∃ top, idx m.nodes (callTreeDepth blocks.length - 1) = .ok top ∧ top.length = 2) := by
  have hlen : (blocks.map (fun b => H b.Data)).length = blocks.length := by simp
  have hpos := callTreeDepth_pos blocks.length hn
  refine ⟨treeOf H blocks, New_eq H blocks hn, treeOf_nodes_length H blocks,
    treeOf_nodes_length H blocks, ?_, ?_, ?_⟩
  · intro k hk
    refine ⟨_, treeOf_nodes_idx H blocks k hk, ?_, level_length_even _ _ _⟩
    rw [level_length, hlen, ulen_eq_ceil]
  · intro k hk
    refine ⟨_, treeOf_nodes_idx H blocks k (by omega), ?_⟩
    rw [level_half, hlen, ulen_eq_ceil]
  · refine ⟨_, treeOf_nodes_idx H blocks _ (by omega), ?_⟩
    have := level_top_length H (blocks.map (fun b => H b.Data)) (by rw [hlen]; exact hn)
    rwa [hlen] at this

/-- C16 on five blocks with the identity as hash. -/
theorem C16_level_shape_witness :
    2 ≤ [Block.mk [0], Block.mk [1], Block.mk [2], Block.mk [3], Block.mk [4]].length ∧
    ∃ m, New (fun x => x)
        [Block.mk [0], Block.mk [1], Block.mk [2], Block.mk [3], Block.mk [4]] = .ok m ∧
      m.nodes.length = callTreeDepth
        [Block.mk [0], Block.mk [1], Block.mk [2], Block.mk [3], Block.mk [4]].length ∧
      m.nodes.length = m.Depth ∧
      (∀ k, k < callTreeDepth
          [Block.mk [0], Block.mk [1], Block.mk [2], Block.mk [3], Block.mk [4]].length →
        ∃ lvl, idx m.nodes k = .ok lvl ∧
        lvl.length =
          ([Block.mk [0], Block.mk [1], Block.mk [2], Block.mk [3], Block.mk [4]].length +
            2 ^ k - 1) / 2 ^ k +
          (([Block.mk [0], Block.mk [1], Block.mk [2], Block.mk [3], Block.mk [4]].length +
            2 ^ k - 1) / 2 ^ k) % 2 ∧
        lvl.length % 2 = 0) ∧
      (∀ k, k + 1 < callTreeDepth
          [Block.mk [0], Block.mk [1], Block.mk [2], Block.mk [3], Block.mk [4]].length →
        ∃ lo, idx m.nodes k = .ok lo ∧
        ([Block.mk [0], Block.mk [1], Block.mk [2], Block.mk [3], Block.mk [4]].length +
          2 ^ (k + 1) - 1) / 2 ^ (k + 1) = lo.length / 2) ∧
      (∃ top, idx m.nodes (callTreeDepth
          [Block.mk [0], Block.mk [1], Block.mk [2], Block.mk [3], Block.mk [4]].length - 1) =
        .ok top ∧ top.length = 2) :=
  ⟨by decide,
    C16_level_shape (fun x => x)
      [Block.mk [0], Block.mk [1], Block.mk [2], Block.mk [3], Block.mk [4]] (by decide)⟩

/-- C17: in the tree built from `n ≥ 2` blocks, stored level 0 is the leaf
sequence followed, when `n` is odd, by a copy of the last leaf; for every `i`
with `i + 1 < Depth` and every `j` below the unpadded length of level `i + 1`
(half the length of stored level `i`),
`nodes[i+1][j] = hash(concatSortHash(nodes[i][2j], nodes[i][2j+1]))`, and when
that unpadded length is odd the level has one more element, equal to its last
computed one; and `Root = hash(concatSortHash(nodes[Depth-1][0], nodes[Depth-1][1]))`. -/
theorem C17_level_contents (H : Bytes → Bytes) (blocks : List Block) (hn : 2 ≤ blocks.length) :
    ∃ m, New H blocks = .ok m ∧
      idx m.nodes 0 = .ok
        (if blocks.length % 2 = 1 then
          blocks.map (fun b => H b.Data) ++
            [(blocks.map (fun b => H b.Data)).getD (blocks.length - 1) []]
        else blocks.map (fun b => H b.Data)) ∧
      (∀ i, i + 1 < m.Depth → ∃ lo hi, idx m.nodes i = .ok lo ∧ idx m.nodes (i + 1) = .ok hi ∧
        (∀ j, j < lo.length / 2 → ∃ a c, idx lo (2 * j) = .ok a ∧ idx lo (2 * j + 1) = .ok c ∧
          idx hi j = .ok (H (concatSortHash a c))) ∧
        hi.length = lo.length / 2 + (lo.length / 2) % 2 ∧
        ((lo.length / 2) % 2 = 1 →
          ∃ x, idx hi (lo.length / 2 - 1) = .ok x ∧ idx hi (lo.length / 2) = .ok x)) ∧
      (∃ top a c, idx m.nodes (m.Depth - 1) = .ok top ∧ idx top 0 = .ok a ∧
        idx top 1 = .ok c ∧ m.Root = H (concatSortHash a c)) := by
  have hlen : (blocks.map (fun b => H b.Data)).length = blocks.length := by simp
  have hpos := callTreeDepth_pos blocks.length hn
  have hD : (treeOf H blocks).Depth = callTreeDepth blocks.length := rfl
  refine ⟨treeOf H blocks, New_eq H blocks hn, ?_, ?_, ?_⟩
  · rw [treeOf_nodes_idx H blocks 0 (by omega)]
    simp only [level]
    rw [pad_eq, hlen]
  · intro i hi
    rw [hD] at hi
    have hhalf := level_half H (blocks.map (fun b => H b.Data)) i
    have hev := level_length_even H (blocks.map (fun b => H b.Data)) i
    have hraw : (pairUp H (level H (blocks.map (fun b => H b.Data)) i)).length =
        (level H (blocks.map (fun b => H b.Data)) i).length / 2 := pairUp_length _ _
    have hhi : (level H (blocks.map (fun b => H b.Data)) (i + 1)).length =
        (level H (blocks.map (fun b => H b.Data)) i).length / 2 +
          ((level H (blocks.map (fun b => H b.Data)) i).length / 2) % 2 := by
      simp only [level]
      rw [pad_length, hraw]
    refine ⟨_, _, treeOf_nodes_idx H blocks i (by omega), treeOf_nodes_idx H blocks (i + 1) hi,
      ?_, hhi, ?_⟩
    · intro j hj
      refine ⟨_, _, idx_getD (by omega), idx_getD (by omega), ?_⟩
      rw [idx_getD (by omega), level_succ_getD _ _ _ _ (by rw [← hhalf]; exact hj)]
      rfl
    · intro hodd
      refine ⟨_, idx_getD (by omega), ?_⟩
      rw [idx_getD (by omega)]
      congr 1
      simp only [level]
      rw [← hraw] at hodd ⊢
      rw [pad_getD_last _ hodd, pad_getD_lt _ _ (by omega)]
  · have htop := level_top_length H (blocks.map (fun b => H b.Data)) (by rw [hlen]; exact hn)
    rw [hlen] at htop
    refine ⟨_, _, _, treeOf_nodes_idx H blocks _ (by rw [hD]; omega),
      idx_getD (by rw [hD, htop]; omega), idx_getD (by rw [hD, htop]; omega), rfl⟩

/-- C17 on three blocks with the identity as hash. -/
theorem C17_level_contents_witness :
    2 ≤ [Block.mk [0], Block.mk [1], Block.mk [2]].length ∧
    ∃ m, New (fun x => x) [Block.mk [0], Block.mk [1], Block.mk [2]] = .ok m ∧
      idx m.nodes 0 = .ok
        (if [Block.mk [0], Block.mk [1], Block.mk [2]].length % 2 = 1 then
          [Block.mk [0], Block.mk [1], Block.mk [2]].map (fun b => (fun x => x) b.Data) ++
            [([Block.mk [0], Block.mk [1], Block.mk [2]].map (fun b => (fun x => x) b.Data)).getD
              ([Block.mk [0], Block.mk [1], Block.mk [2]].length - 1) []]
        else [Block.mk [0], Block.mk [1], Block.mk [2]].map (fun b => (fun x => x) b.Data)) ∧
      (∀ i, i + 1 < m.Depth → ∃ lo hi, idx m.nodes i = .ok lo ∧ idx m.nodes (i + 1) = .ok hi ∧
        (∀ j, j < lo.length / 2 → ∃ a c, idx lo (2 * j) = .ok a ∧ idx lo (2 * j + 1) = .ok c ∧
          idx hi j = .ok ((fun x => x) (concatSortHash a c))) ∧
        hi.length = lo.length / 2 + (lo.length / 2) % 2 ∧
        ((lo.length / 2) % 2 = 1 →
          ∃ x, idx hi (lo.length / 2 - 1) = .ok x ∧ idx hi (lo.length / 2) = .ok x)) ∧
      (∃ top a c, idx m.nodes (m.Depth - 1) = .ok top ∧ idx top 0 = .ok a ∧
        idx top 1 = .ok c ∧ m.Root = (fun x => x) (concatSortHash a c)) :=
  ⟨by decide,
    C17_level_contents (fun x => x) [Block.mk [0], Block.mk [1], Block.mk [2]] (by decide)⟩

/-- C18: `concatSortHash a b = concatSortHash b a` for all byte sequences; the
result is the smaller of the two followed by the larger in the lexicographic
order of byte sequences (the order `bytes.Compare` decides), `a` followed by
`a` when they are equal; hence the hash of the one is the hash of the other. -/
theorem C18_concatSortHash_order_independent (H : Bytes → Bytes) (a b : Bytes) :
    concatSortHash a b = concatSortHash b a ∧
    concatSortHash a b = Min.min a b ++ Max.max a b ∧
    (bytesCompare a b < 0 ↔ a < b) ∧
    concatSortHash a a = a ++ a ∧
    H (concatSortHash a b) = H (concatSortHash b a) := by
  refine ⟨concatSortHash_comm a b, concatSortHash_min_max a b, bytesCompare_lt_iff a b, ?_, ?_⟩
  · rcases concatSortHash_cases a a with h | h <;> exact h
  · rw [concatSortHash_comm]

/-- C19: in the tree built from `n ≥ 2` blocks with `Depth ≤ 32`, for a leaf
index `i < n` and `p = m.Proofs[i]`: bit `s` of `p.Path` is set exactly when
`s < Depth` and `floor(i / 2^s)` is even; for `s < Depth`, `p.Siblings[s]` is
`nodes[s][floor(i/2^s) + 1]` when `floor(i / 2^s)` is even and
`nodes[s][floor(i/2^s) - 1]` otherwise; and `p.Path = 2^Depth - 1 - i`. -/
theorem C19_batched_path_value (H : Bytes → Bytes) (blocks : List Block) (i : Nat)
    (hn : 2 ≤ blocks.length) (hd : callTreeDepth blocks.length ≤ 32) (hi : i < blocks.length) :
    ∃ m p, New H blocks = .ok m ∧ idx m.Proofs i = .ok (some p) ∧
      (∀ s, p.Path.testBit s = true ↔ (s < m.Depth ∧ (i / 2 ^ s) % 2 = 0)) ∧
      (∀ s, s < m.Depth → ∃ lvl x, idx m.nodes s = .ok lvl ∧ idx p.Siblings s = .ok x ∧
        idx lvl (if (i / 2 ^ s) % 2 = 0 then i / 2 ^ s + 1 else i / 2 ^ s - 1) = .ok x) ∧
      p.Path = 2 ^ m.Depth - 1 - i := by
  have hlen : (blocks.map (fun b => H b.Data)).length = blocks.length := by simp
  have hD : (treeOf H blocks).Depth = callTreeDepth blocks.length := rfl
  have hlt : i < 2 ^ callTreeDepth blocks.length :=
    Nat.lt_of_lt_of_le hi (le_pow_callTreeDepth _ (by omega))
  have hpath : (walk H (blocks.map (fun b => H b.Data)) (callTreeDepth blocks.length) i).Path =
      2 ^ callTreeDepth blocks.length - 1 - i := by
    simp only [walk]
    rw [pathUpTo_eq _ _ hd, Nat.mod_eq_of_lt hlt]
  refine ⟨treeOf H blocks, _, New_eq H blocks hn,
    idx_of_getElem? (treeOf_proofs_get H blocks i hi), ?_, ?_, ?_⟩
  · intro s
    have hsub : 2 ^ callTreeDepth blocks.length - 1 - i =
        2 ^ callTreeDepth blocks.length - (i + 1) := by omega
    rw [hpath, hD, hsub, Nat.testBit_two_pow_sub_succ hlt, Nat.testBit_to_div_mod]
    have hbit : i / 2 ^ s % 2 < 2 := Nat.mod_lt _ (by decide)
    generalize i / 2 ^ s % 2 = bit at hbit
    simp only [Bool.and_eq_true, decide_eq_true_eq, Bool.not_eq_true', decide_eq_false_iff_not]
    constructor
    · rintro ⟨h1, h2⟩; exact ⟨h1, by omega⟩
    · rintro ⟨h1, h2⟩; exact ⟨h1, by omega⟩
  · intro s hs
    rw [hD] at hs
    have hsib := sibling_index_lt H (blocks.map (fun b => H b.Data)) i s (by rw [hlen]; exact hi)
    have hidx : (if (i / 2 ^ s) % 2 = 0 then i / 2 ^ s + 1 else i / 2 ^ s - 1) =
        (if (i / 2 ^ s) % 2 = 1 then i / 2 ^ s - 1 else i / 2 ^ s + 1) := by
      by_cases h : (i / 2 ^ s) % 2 = 0
      · rw [if_pos h, if_neg (by omega)]
      · rw [if_neg h, if_pos (by omega)]
    refine ⟨_, sibling H (blocks.map (fun b => H b.Data)) s i,
      treeOf_nodes_idx H blocks s hs, ?_, ?_⟩
    · rw [walk_siblings]
      exact idx_tab _ _ _ hs
    · rw [hidx, idx_getD hsib]
      rfl
  · rw [hpath]
    rfl

/-- C19 on five blocks with the identity as hash, at the leaf index 2. -/
theorem C19_batched_path_value_witness :
    2 ≤ [Block.mk [0], Block.mk [1], Block.mk [2], Block.mk [3], Block.mk [4]].length ∧
    callTreeDepth
      [Block.mk [0], Block.mk [1], Block.mk [2], Block.mk [3], Block.mk [4]].length ≤ 32 ∧
    2 < [Block.mk [0], Block.mk [1], Block.mk [2], Block.mk [3], Block.mk [4]].length ∧
    ∃ m p, New (fun x => x)
        [Block.mk [0], Block.mk [1], Block.mk [2], Block.mk [3], Block.mk [4]] = .ok m ∧
      idx m.Proofs 2 = .ok (some p) ∧
      (∀ s, p.Path.testBit s = true ↔ (s < m.Depth ∧ (2 / 2 ^ s) % 2 = 0)) ∧
      (∀ s, s < m.Depth → ∃ lvl x, idx m.nodes s = .ok lvl ∧ idx p.Siblings s = .ok x ∧
        idx lvl (if (2 / 2 ^ s) % 2 = 0 then 2 / 2 ^ s + 1 else 2 / 2 ^ s - 1) = .ok x) ∧
      p.Path = 2 ^ m.Depth - 1 - 2 :=
  ⟨by decide, by decide, by decide,
    C19_batched_path_value (fun x => x)
      [Block.mk [0], Block.mk [1], Block.mk [2], Block.mk [3], Block.mk [4]] 2
      (by decide) (by decide) (by decide)⟩

/-- C20: for a block list of length `n ≥ 2` and `k` with `2k + 1 < n`, the list
with the blocks at the positions `2k` and `2k + 1` exchanged gives a tree with
the same `Root`, the same `Depth` and the same stored levels above level 0 as
the original list. -/
theorem C20_swap_leaf_pair (H : Bytes → Bytes) (blocks : List Block) (k : Nat)
    (hn : 2 ≤ blocks.length) (hk : 2 * k + 1 < blocks.length) :
    ∃ m m', New H blocks = .ok m ∧
      New H ((blocks.set (2 * k) blocks[2 * k + 1]).set (2 * k + 1) blocks[2 * k]) = .ok m' ∧
      m'.Root = m.Root ∧ m'.Depth = m.Depth ∧ m'.nodes.drop 1 = m.nodes.drop 1 := by
  have hlen' : ((blocks.set (2 * k) blocks[2 * k + 1]).set (2 * k + 1) blocks[2 * k]).length =
      blocks.length := by simp
  obtain ⟨h1, h2, h3⟩ := treeOf_swappedAt H k blocks _ hn hlen' (swappedAt_leaves H blocks k hk)
  exact ⟨treeOf H blocks, treeOf H _, New_eq H blocks hn,
    New_eq H _ (by rw [hlen']; exact hn), h1, h2, h3⟩

/-- C20 on five blocks with the identity as hash, exchanging the blocks 2 and 3. -/
theorem C20_swap_leaf_pair_witness :
    2 ≤ [Block.mk [0], Block.mk [1], Block.mk [2], Block.mk [3], Block.mk [4]].length ∧
    2 * 1 + 1 < [Block.mk [0], Block.mk [1], Block.mk [2], Block.mk [3], Block.mk [4]].length ∧
    ∃ m m', New (fun x => x)
        [Block.mk [0], Block.mk [1], Block.mk [2], Block.mk [3], Block.mk [4]] = .ok m ∧
      New (fun x => x)
        [Block.mk [0], Block.mk [1], Block.mk [3], Block.mk [2], Block.mk [4]] = .ok m' ∧
      m'.Root = m.Root ∧ m'.Depth = m.Depth ∧ m'.nodes.drop 1 = m.nodes.drop 1 :=
  ⟨by decide, by decide,
    C20_swap_leaf_pair (fun x => x)
      [Block.mk [0], Block.mk [1], Block.mk [2], Block.mk [3], Block.mk [4]] 1
      (by decide) (by decide)⟩

end Merkle
